import Mathlib

/-!
# Verification of the `parallel` package of stuartcarnie/godot-dash

Shallow embedding of `pkg/parallel`: the `Executor` with its two entry
points `For` and `ForWithContext`, the `SerialExecutor`, and the two
built-in work-distribution strategies.

Concurrency is modelled as an interleaving machine: a run is determined
by a *schedule*, the list of worker ids in the order in which the workers
take loop iterations.  One machine step is one iteration of a worker's
loop body from the source

    for i := indexGenerator.Next(); i < N; i = indexGenerator.Next() {
        ... (optional context check) ...
        if err := loopBody(i, grID); err != nil {
            errOnce.Do(func() { loopErr = err; (cancel()) })
            return
        }
    }

performed atomically: fetch an index from the generator, (in the context
variant) check cancellation, invoke the body, and on error write the
single-assignment slot.  Errors are opaque to the executor and are
modelled as natural numbers; a loop body is a function
`Nat → Nat → Option Nat` taking the index and the goroutine id and
returning `none` for success.

The strategy implementations (`strategy.go`) are not part of the source
tree available here; they are modelled from the spec where so marked.
-/

namespace Parallel

/-- The two built-in work-distribution strategies. -/
inductive Strategy where
  | contiguousBlocks
  | atomicCounter
deriving DecidableEq, Repr

/-- Modelled from the spec: the enumerated strategy tag accepted by
`WithStrategy` — `{use-defaults, preassign-indices, fetch-next-index}`,
plus any other (unrecognized) value. -/
inductive StrategyType where
  | useDefaults
  | preassignIndices
  | fetchNextIndex
  | unrecognized (tag : Nat)
deriving DecidableEq, Repr

/-- The `Executor` struct: a goroutine count and an optional strategy
(`nil` in Go becomes `none`). -/
structure Executor where
  numGoroutines : Nat
  parallelStrategy : Option Strategy
deriving DecidableEq, Repr

/-- `NewExecutor()`: default goroutine count (`DefaultNumGoroutines()`,
passed here as a parameter since it is platform-dependent) and no
strategy configured. -/
def NewExecutor (defaultNumGoroutines : Nat) : Executor :=
  { numGoroutines := defaultNumGoroutines, parallelStrategy := none }

/-- `Executor.WithNumGoroutines`. -/
def Executor.WithNumGoroutines (e : Executor) (n : Nat) : Executor :=
  { e with numGoroutines := n }

/-- `Executor.WithStrategy`: `StrategyPreassignIndices` selects the
contiguous blocks strategy, `StrategyFetchNextIndex` the atomic counter
strategy, and any other value (including `StrategyUseDefaults`) resets
the field to `nil`. -/
def Executor.WithStrategy (e : Executor) (strategyType : StrategyType) : Executor :=
  match strategyType with
  | .preassignIndices => { e with parallelStrategy := some .contiguousBlocks }
  | .fetchNextIndex => { e with parallelStrategy := some .atomicCounter }
  | _ => { e with parallelStrategy := none }

/-- The strategy actually used by `For`/`ForWithContext`: the configured
one, or the contiguous blocks strategy when none is configured
(`if strategy == nil { strategy = newContiguousBlocksStrategy() }`). -/
def Executor.effectiveStrategy (e : Executor) : Strategy :=
  e.parallelStrategy.getD .contiguousBlocks

/-- Modelled from the spec: lower bound of worker `w`'s contiguous block.
The spec divides `[0, N)` into `workerCount` blocks of size
`floor (N / workerCount)` and hands one extra element to each of the first
`N mod workerCount` workers, so worker `w`'s block starts at
`w * floor (N / wc) + min w (N mod wc)`. -/
def blockLo (wc w N : Nat) : Nat :=
  w * (N / wc) + min w (N % wc)

/-- Upper bound (exclusive) of worker `w`'s contiguous block: the next
worker's lower bound. -/
def blockHi (wc w N : Nat) : Nat :=
  blockLo wc (w + 1) N

/-- Modelled from the spec: the per-worker contiguous index generator —
a cursor that increments through its own half-open range `[cur, hi)` and
then reports exhaustion. -/
structure ContigGen where
  cur : Nat
  hi : Nat
deriving DecidableEq, Repr

/-- One observable event of a run: `ok w i` — worker `w` invoked the body
on index `i` and it succeeded; `err w i e` — the body returned error `e`;
`skipCancel w i` — worker `w` fetched index `i` but found the derived
context cancelled and returned without invoking the body; `exhaust w` —
worker `w`'s generator reported exhaustion and the worker finished. -/
inductive Event where
  | ok (w i : Nat)
  | err (w i e : Nat)
  | skipCancel (w i : Nat)
  | exhaust (w : Nat)
deriving DecidableEq, Repr

/-- The worker that produced an event. -/
def Event.worker : Event → Nat
  | .ok w _ => w
  | .err w _ _ => w
  | .skipCancel w _ => w
  | .exhaust w => w

/-- The index on which the loop body was actually invoked by this event,
if it was. -/
def Event.bodyIndex : Event → Option Nat
  | .ok _ i => some i
  | .err _ i _ => some i
  | _ => none

/-- Whether this event is an invocation of the loop body. -/
def Event.isBody (ev : Event) : Bool :=
  ev.bodyIndex.isSome

/-- The error value carried by an `err` event. -/
def Event.errVal : Event → Option Nat
  | .err _ _ e => some e
  | _ => none

/-- `ev.bodyIndexOf w`: the invoked index if the event is a body
invocation by worker `w`. -/
def Event.bodyIndexOf (w : Nat) (ev : Event) : Option Nat :=
  if ev.worker = w then ev.bodyIndex else none

/-- Static configuration of one `For`/`ForWithContext` invocation:
the strategy in effect, the goroutine count, the iteration bound
(already converted from the Go `int` argument, see `Executor.ForRun`),
whether this is the context variant, and the loop body. -/
structure MCfg where
  strat : Strategy
  wc : Nat
  bound : Nat
  hasCtx : Bool
  body : Nat → Nat → Option Nat

/-- Shared state of one invocation: the atomic counter (atomic counter
strategy), the per-worker contiguous generators, the per-worker finished
flags, the single-assignment error slot (`errOnce`/`loopErr`), the
cancellation flag of the derived context, and the event log in execution
order. -/
structure MState where
  counter : Nat
  gens : Nat → ContigGen
  done : Nat → Bool
  errSlot : Option Nat
  cancelled : Bool
  log : List Event

/-- `IndexGenerator.Next()` for worker `w`: the contiguous generator
returns its cursor while inside its range (the sentinel `≥ N` of the spec
is rendered as `none`, since the loop exits on any such value); the
atomic counter generator returns the pre-increment counter value while it
is below the bound. -/
def genNext (c : MCfg) (s : MState) (w : Nat) : Option Nat × MState :=
  match c.strat with
  | .contiguousBlocks =>
      let g := s.gens w
      if g.cur < g.hi then
        (some g.cur, { s with gens := Function.update s.gens w ⟨g.cur + 1, g.hi⟩ })
      else
        (none, s)
  | .atomicCounter =>
      if s.counter < c.bound then
        (some s.counter, { s with counter := s.counter + 1 })
      else
        (none, { s with counter := s.counter + 1 })

/-- Worker `w` finishes because its generator is exhausted. -/
def finishExhaust (s : MState) (w : Nat) : MState :=
  { s with done := Function.update s.done w true, log := s.log ++ [.exhaust w] }

/-- Worker `w` fetched index `i` but the derived context is cancelled:
it returns without invoking the body. -/
def finishSkip (s : MState) (w : Nat) (i : Nat) : MState :=
  { s with done := Function.update s.done w true, log := s.log ++ [.skipCancel w i] }

/-- Worker `w` ran the body on index `i` successfully and keeps going. -/
def logOk (s : MState) (w : Nat) (i : Nat) : MState :=
  { s with log := s.log ++ [.ok w i] }

/-- Worker `w`'s body returned error `e`: `errOnce.Do` stores it in the
single-assignment slot iff the slot is still empty (and, in the context
variant, cancels the derived context in the same critical section); the
worker then returns. -/
def finishErr (c : MCfg) (s : MState) (w : Nat) (i e : Nat) : MState :=
  let s' :=
    if s.errSlot = none then
      { s with errSlot := some e, cancelled := s.cancelled || c.hasCtx }
    else s
  { s' with done := Function.update s'.done w true, log := s'.log ++ [.err w i e] }

/-- One atomic loop iteration of worker `w` (a stutter if `w` has already
returned, which also covers schedule entries `≥ wc`). -/
def step (c : MCfg) (s : MState) (w : Nat) : MState :=
  if s.done w then s
  else
    match genNext c s w with
    | (none, s') => finishExhaust s' w
    | (some i, s') =>
        if c.hasCtx && s'.cancelled then finishSkip s' w i
        else
          match c.body i w with
          | none => logOk s' w i
          | some e => finishErr c s' w i e

/-- Initial state of one invocation: counter at `0`, each worker's
contiguous generator covering its block, no worker finished (workers
beyond `wc` are never spawned, so they are marked finished), empty error
slot, the derived context inheriting the caller context's cancellation
state, empty log. -/
def initState (c : MCfg) (ctxCancelled : Bool) : MState :=
  { counter := 0
    gens := fun w => ⟨blockLo c.wc w c.bound, blockHi c.wc w c.bound⟩
    done := fun w => decide (c.wc ≤ w)
    errSlot := none
    cancelled := ctxCancelled
    log := [] }

/-- Run the machine under a schedule. -/
def run (c : MCfg) (ctxCancelled : Bool) (sched : List Nat) : MState :=
  sched.foldl (step c) (initState c ctxCancelled)

/-- All spawned workers have returned (`wg.Wait()` has unblocked). -/
def allDone (wc : Nat) (s : MState) : Prop :=
  ∀ w, w < wc → s.done w = true

instance (wc : Nat) (s : MState) : Decidable (allDone wc s) :=
  Nat.decidableBallLT wc fun w _ => s.done w = true

/-- The indices on which the loop body was invoked, in execution order. -/
def MState.invoked (s : MState) : List Nat :=
  s.log.filterMap Event.bodyIndex

/-- The indices on which worker `w` invoked the loop body, in order. -/
def MState.invokedBy (s : MState) (w : Nat) : List Nat :=
  s.log.filterMap (Event.bodyIndexOf w)

/-- The errors returned by body invocations, in capture order. -/
def MState.errList (s : MState) : List Nat :=
  s.log.filterMap Event.errVal

/-- The configuration `Executor.For(N, loopBody)` runs under.  The Go
loop guard is `i < N` with `N : int`; every comparison `i < N` with
`i : Nat` is equivalent to `i < N.toNat`, so the bound is `N.toNat`
(for `N ≤ 0` every generator is immediately exhausted, as the spec
states). -/
def Executor.forCfg (e : Executor) (N : Int) (body : Nat → Nat → Option Nat) : MCfg :=
  { strat := e.effectiveStrategy
    wc := e.numGoroutines
    bound := N.toNat
    hasCtx := false
    body := body }

/-- A run of `Executor.For(N, loopBody)` under a schedule. -/
def Executor.ForRun (e : Executor) (N : Int) (body : Nat → Nat → Option Nat)
    (sched : List Nat) : MState :=
  run (e.forCfg N body) false sched

/-- The configuration `Executor.ForWithContext(ctx, N, loopBody)` runs
under. -/
def Executor.ctxCfg (e : Executor) (N : Int) (body : Nat → Nat → Option Nat) : MCfg :=
  { strat := e.effectiveStrategy
    wc := e.numGoroutines
    bound := N.toNat
    hasCtx := true
    body := body }

/-- A run of `Executor.ForWithContext(ctx, N, loopBody)` under a
schedule; `ctxCancelled` is the cancellation state the derived context
inherits from the caller's `ctx`. -/
def Executor.ForWithContextRun (e : Executor) (ctxCancelled : Bool) (N : Int)
    (body : Nat → Nat → Option Nat) (sched : List Nat) : MState :=
  run (e.ctxCfg N body) ctxCancelled sched

/-! ## Basic lemmas about the machine operations -/

@[simp] theorem finishExhaust_counter (s : MState) (w : Nat) :
    (finishExhaust s w).counter = s.counter := rfl
@[simp] theorem finishExhaust_gens (s : MState) (w : Nat) :
    (finishExhaust s w).gens = s.gens := rfl
@[simp] theorem finishExhaust_done (s : MState) (w : Nat) :
    (finishExhaust s w).done = Function.update s.done w true := rfl
@[simp] theorem finishExhaust_errSlot (s : MState) (w : Nat) :
    (finishExhaust s w).errSlot = s.errSlot := rfl
@[simp] theorem finishExhaust_cancelled (s : MState) (w : Nat) :
    (finishExhaust s w).cancelled = s.cancelled := rfl
@[simp] theorem finishExhaust_log (s : MState) (w : Nat) :
    (finishExhaust s w).log = s.log ++ [.exhaust w] := rfl

@[simp] theorem finishSkip_counter (s : MState) (w i : Nat) :
    (finishSkip s w i).counter = s.counter := rfl
@[simp] theorem finishSkip_gens (s : MState) (w i : Nat) :
    (finishSkip s w i).gens = s.gens := rfl
@[simp] theorem finishSkip_done (s : MState) (w i : Nat) :
    (finishSkip s w i).done = Function.update s.done w true := rfl
@[simp] theorem finishSkip_errSlot (s : MState) (w i : Nat) :
    (finishSkip s w i).errSlot = s.errSlot := rfl
@[simp] theorem finishSkip_cancelled (s : MState) (w i : Nat) :
    (finishSkip s w i).cancelled = s.cancelled := rfl
@[simp] theorem finishSkip_log (s : MState) (w i : Nat) :
    (finishSkip s w i).log = s.log ++ [.skipCancel w i] := rfl

@[simp] theorem logOk_counter (s : MState) (w i : Nat) :
    (logOk s w i).counter = s.counter := rfl
@[simp] theorem logOk_gens (s : MState) (w i : Nat) :
    (logOk s w i).gens = s.gens := rfl
@[simp] theorem logOk_done (s : MState) (w i : Nat) :
    (logOk s w i).done = s.done := rfl
@[simp] theorem logOk_errSlot (s : MState) (w i : Nat) :
    (logOk s w i).errSlot = s.errSlot := rfl
@[simp] theorem logOk_cancelled (s : MState) (w i : Nat) :
    (logOk s w i).cancelled = s.cancelled := rfl
@[simp] theorem logOk_log (s : MState) (w i : Nat) :
    (logOk s w i).log = s.log ++ [.ok w i] := rfl

@[simp] theorem finishErr_counter (c : MCfg) (s : MState) (w i e : Nat) :
    (finishErr c s w i e).counter = s.counter := by
  unfold finishErr; split <;> rfl
@[simp] theorem finishErr_gens (c : MCfg) (s : MState) (w i e : Nat) :
    (finishErr c s w i e).gens = s.gens := by
  unfold finishErr; split <;> rfl
@[simp] theorem finishErr_done (c : MCfg) (s : MState) (w i e : Nat) :
    (finishErr c s w i e).done = Function.update s.done w true := by
  unfold finishErr; split <;> rfl
@[simp] theorem finishErr_errSlot (c : MCfg) (s : MState) (w i e : Nat) :
    (finishErr c s w i e).errSlot = if s.errSlot = none then some e else s.errSlot := by
  unfold finishErr; split <;> simp_all
@[simp] theorem finishErr_cancelled (c : MCfg) (s : MState) (w i e : Nat) :
    (finishErr c s w i e).cancelled =
      if s.errSlot = none then s.cancelled || c.hasCtx else s.cancelled := by
  unfold finishErr; split <;> simp_all
@[simp] theorem finishErr_log (c : MCfg) (s : MState) (w i e : Nat) :
    (finishErr c s w i e).log = s.log ++ [.err w i e] := by
  unfold finishErr; split <;> rfl

/-- `genNext` never touches the finished flags, the error slot, the
cancellation flag, or the log; it never decreases the counter; and it
never touches another worker's generator. -/
theorem genNext_frame {c : MCfg} {s : MState} {w : Nat} {oi : Option Nat} {s' : MState}
    (hg : genNext c s w = (oi, s')) :
    s'.done = s.done ∧ s'.errSlot = s.errSlot ∧ s'.cancelled = s.cancelled ∧
      s'.log = s.log ∧ s.counter ≤ s'.counter ∧ ∀ v, v ≠ w → s'.gens v = s.gens v := by
  cases hst : c.strat <;> simp only [genNext, hst] at hg <;> split at hg <;>
      injection hg with h1 h2 <;> subst h2
  · exact ⟨rfl, rfl, rfl, rfl, Nat.le_refl _, fun v hv => by
      simp [Function.update_noteq hv]⟩
  · exact ⟨rfl, rfl, rfl, rfl, Nat.le_refl _, fun v hv => rfl⟩
  · exact ⟨rfl, rfl, rfl, rfl, Nat.le_succ _, fun v hv => rfl⟩
  · exact ⟨rfl, rfl, rfl, rfl, Nat.le_succ _, fun v hv => rfl⟩

/-- Inversion: an exhausted fetch under the contiguous strategy. -/
theorem genNext_contig_none {c : MCfg} {s : MState} {w : Nat} {s' : MState}
    (hst : c.strat = .contiguousBlocks) (hg : genNext c s w = (none, s')) :
    s' = s ∧ (s.gens w).hi ≤ (s.gens w).cur := by
  simp only [genNext, hst] at hg
  split at hg
  · exact absurd hg (by simp)
  · injection hg with h1 h2; exact ⟨h2.symm, by omega⟩

/-- Inversion: a successful fetch under the contiguous strategy claims
the cursor and advances it. -/
theorem genNext_contig_some {c : MCfg} {s : MState} {w i : Nat} {s' : MState}
    (hst : c.strat = .contiguousBlocks) (hg : genNext c s w = (some i, s')) :
    i = (s.gens w).cur ∧ (s.gens w).cur < (s.gens w).hi ∧
      s' = { s with gens := Function.update s.gens w ⟨(s.gens w).cur + 1, (s.gens w).hi⟩ } := by
  simp only [genNext, hst] at hg
  split at hg
  · injection hg with h1 h2
    injection h1 with h1
    exact ⟨h1.symm, by assumption, h2.symm⟩
  · exact absurd hg (by simp)

/-- Inversion: an exhausted fetch under the atomic counter strategy. -/
theorem genNext_atomic_none {c : MCfg} {s : MState} {w : Nat} {s' : MState}
    (hst : c.strat = .atomicCounter) (hg : genNext c s w = (none, s')) :
    c.bound ≤ s.counter ∧ s' = { s with counter := s.counter + 1 } := by
  simp only [genNext, hst] at hg
  split at hg
  · exact absurd hg (by simp)
  · injection hg with h1 h2; exact ⟨by omega, h2.symm⟩

/-- Inversion: a successful fetch under the atomic counter strategy
claims the pre-increment counter value. -/
theorem genNext_atomic_some {c : MCfg} {s : MState} {w i : Nat} {s' : MState}
    (hst : c.strat = .atomicCounter) (hg : genNext c s w = (some i, s')) :
    i = s.counter ∧ s.counter < c.bound ∧ s' = { s with counter := s.counter + 1 } := by
  simp only [genNext, hst] at hg
  split at hg
  · injection hg with h1 h2
    injection h1 with h1
    exact ⟨h1.symm, by assumption, h2.symm⟩
  · exact absurd hg (by simp)

/-- The five possible outcomes of one machine step. -/
inductive StepKind (c : MCfg) (s : MState) (w : Nat) : MState → Prop where
  | stutter (hd : s.done w = true) : StepKind c s w s
  | exhausted (s' : MState) (hd : s.done w = false)
      (hg : genNext c s w = (none, s')) : StepKind c s w (finishExhaust s' w)
  | skipped (i : Nat) (s' : MState) (hd : s.done w = false)
      (hg : genNext c s w = (some i, s'))
      (hc : (c.hasCtx && s'.cancelled) = true) : StepKind c s w (finishSkip s' w i)
  | ran (i : Nat) (s' : MState) (hd : s.done w = false)
      (hg : genNext c s w = (some i, s'))
      (hc : (c.hasCtx && s'.cancelled) = false)
      (hb : c.body i w = none) : StepKind c s w (logOk s' w i)
  | failed (i e : Nat) (s' : MState) (hd : s.done w = false)
      (hg : genNext c s w = (some i, s'))
      (hc : (c.hasCtx && s'.cancelled) = false)
      (hb : c.body i w = some e) : StepKind c s w (finishErr c s' w i e)

/-- Every step falls into one of the five `StepKind` outcomes. -/
theorem step_kind (c : MCfg) (s : MState) (w : Nat) : StepKind c s w (step c s w) := by
  unfold step
  split
  · next hd => exact .stutter hd
  · next hd =>
    have hd' : s.done w = false := by
      cases h : s.done w
      · rfl
      · exact absurd h hd
    split
    · next s' heq => exact .exhausted s' hd' heq
    · next i s' heq =>
      split
      · next hc => exact .skipped i s' hd' heq hc
      · next hc =>
        have hc' : (c.hasCtx && s'.cancelled) = false := by
          cases h : (c.hasCtx && s'.cancelled)
          · rfl
          · exact absurd h hc
        split
        · next hb => exact .ran i s' hd' heq hc' hb
        · next e hb => exact .failed i e s' hd' heq hc' hb

@[simp] theorem Event.worker_ok (w i : Nat) : (Event.ok w i).worker = w := rfl
@[simp] theorem Event.worker_err (w i e : Nat) : (Event.err w i e).worker = w := rfl
@[simp] theorem Event.worker_skipCancel (w i : Nat) : (Event.skipCancel w i).worker = w := rfl
@[simp] theorem Event.worker_exhaust (w : Nat) : (Event.exhaust w).worker = w := rfl

@[simp] theorem Event.bodyIndex_ok (w i : Nat) : (Event.ok w i).bodyIndex = some i := rfl
@[simp] theorem Event.bodyIndex_err (w i e : Nat) : (Event.err w i e).bodyIndex = some i := rfl
@[simp] theorem Event.bodyIndex_skipCancel (w i : Nat) :
    (Event.skipCancel w i).bodyIndex = none := rfl
@[simp] theorem Event.bodyIndex_exhaust (w : Nat) : (Event.exhaust w).bodyIndex = none := rfl

@[simp] theorem Event.errVal_ok (w i : Nat) : (Event.ok w i).errVal = none := rfl
@[simp] theorem Event.errVal_err (w i e : Nat) : (Event.err w i e).errVal = some e := rfl
@[simp] theorem Event.errVal_skipCancel (w i : Nat) : (Event.skipCancel w i).errVal = none := rfl
@[simp] theorem Event.errVal_exhaust (w : Nat) : (Event.exhaust w).errVal = none := rfl

@[simp] theorem Event.isBody_ok (w i : Nat) : (Event.ok w i).isBody = true := rfl
@[simp] theorem Event.isBody_err (w i e : Nat) : (Event.err w i e).isBody = true := rfl
@[simp] theorem Event.isBody_skipCancel (w i : Nat) : (Event.skipCancel w i).isBody = false := rfl
@[simp] theorem Event.isBody_exhaust (w : Nat) : (Event.exhaust w).isBody = false := rfl

/-- A step by an already-finished worker changes nothing. -/
theorem step_stutter {c : MCfg} {s : MState} {w : Nat} (h : s.done w = true) :
    step c s w = s := by
  unfold step; simp [h]

/-- A step never unsets a finished flag. -/
theorem step_done_mono (c : MCfg) (s : MState) (w v : Nat) (h : s.done v = true) :
    (step c s w).done v = true := by
  have hk := step_kind c s w
  generalize hstep : step c s w = t at hk ⊢
  rcases hk with hd | ⟨s', hd, hg⟩ | ⟨i, s', hd, hg, hc⟩
    | ⟨i, s', hd, hg, hc, hb⟩ | ⟨i, e, s', hd, hg, hc, hb⟩ <;>
    try exact h
  all_goals {
    have hfr := genNext_frame hg
    by_cases hvw : v = w
    · subst hvw; simp [hfr.1, h]
    · simp only [finishExhaust_done, finishSkip_done, logOk_done, finishErr_done,
        Function.update_noteq hvw, hfr.1, h]
  }

/-- A step never uncancels the derived context. -/
theorem step_cancelled_mono (c : MCfg) (s : MState) (w : Nat) (h : s.cancelled = true) :
    (step c s w).cancelled = true := by
  have hk := step_kind c s w
  generalize hstep : step c s w = t at hk ⊢
  rcases hk with hd | ⟨s', hd, hg⟩ | ⟨i, s', hd, hg, hc⟩
    | ⟨i, s', hd, hg, hc, hb⟩ | ⟨i, e, s', hd, hg, hc, hb⟩ <;>
    try exact h
  all_goals {
    have hfr := genNext_frame hg
    have hcc : s'.cancelled = true := hfr.2.2.1.trans h
    simp [hcc]
  }

/-- A step only ever appends events, and only events of the stepping
worker; it appends nothing when that worker had already finished. -/
theorem step_log_shape (c : MCfg) (s : MState) (w : Nat) :
    ∃ t, (step c s w).log = s.log ++ t ∧ (∀ ev ∈ t, ev.worker = w) ∧
      (s.done w = true → t = []) := by
  have hk := step_kind c s w
  generalize hstep : step c s w = t at hk ⊢
  rcases hk with hd | ⟨s', hd, hg⟩ | ⟨i, s', hd, hg, hc⟩
    | ⟨i, s', hd, hg, hc, hb⟩ | ⟨i, e, s', hd, hg, hc, hb⟩
  · exact ⟨[], by simp, by simp, fun _ => rfl⟩
  · exact ⟨[.exhaust w], by simp [(genNext_frame hg).2.2.2.1], by simp,
      fun h => absurd hd (by simp [h])⟩
  · exact ⟨[.skipCancel w i], by simp [(genNext_frame hg).2.2.2.1], by simp,
      fun h => absurd hd (by simp [h])⟩
  · exact ⟨[.ok w i], by simp [(genNext_frame hg).2.2.2.1], by simp,
      fun h => absurd hd (by simp [h])⟩
  · exact ⟨[.err w i e], by simp [(genNext_frame hg).2.2.2.1], by simp,
      fun h => absurd hd (by simp [h])⟩

/-- Reachable states of one invocation. -/
def Reach (c : MCfg) (cc : Bool) (s : MState) : Prop :=
  ∃ sched, run c cc sched = s

theorem reach_init (c : MCfg) (cc : Bool) : Reach c cc (initState c cc) :=
  ⟨[], rfl⟩

theorem reach_step {c : MCfg} {cc : Bool} {s : MState} (h : Reach c cc s) (w : Nat) :
    Reach c cc (step c s w) := by
  obtain ⟨sched, rfl⟩ := h
  exact ⟨sched ++ [w], by simp [run, List.foldl_append]⟩

/-- Induction over reachable states. -/
theorem reach_ind {c : MCfg} {cc : Bool} (P : MState → Prop)
    (h0 : P (initState c cc))
    (hs : ∀ s w, Reach c cc s → P s → P (step c s w)) :
    ∀ s, Reach c cc s → P s := by
  rintro s ⟨sched, rfl⟩
  suffices h : ∀ l s0, Reach c cc s0 → P s0 → P (List.foldl (step c) s0 l) by
    exact h sched _ (reach_init c cc) h0
  intro l
  induction l with
  | nil => exact fun s0 _ hp => hp
  | cons w l ih => exact fun s0 hr hp => ih _ (reach_step hr w) (hs _ _ hr hp)

/-- Structural invariant of every run: workers beyond `wc` are never
spawned; every event belongs to a spawned worker; the single-assignment
slot holds exactly the first captured error; and every logged body
outcome is what the loop body returns at that index and goroutine id. -/
structure WF (c : MCfg) (s : MState) : Prop where
  doneHigh : ∀ w, c.wc ≤ w → s.done w = true
  logWorkers : ∀ ev ∈ s.log, ev.worker < c.wc
  errHead : s.errSlot = s.errList.head?
  errBody : ∀ w i e, Event.err w i e ∈ s.log → c.body i w = some e
  okBody : ∀ w i, Event.ok w i ∈ s.log → c.body i w = none

theorem WF_init (c : MCfg) (cc : Bool) : WF c (initState c cc) := by
  refine ⟨fun w h => ?_, by simp [initState], ?_, by simp [initState], by simp [initState]⟩
  · simp [initState, h]
  · simp [initState, MState.errList]

/-- `WF` is insensitive to the generator fetch. -/
theorem WF_genNext {c : MCfg} {s : MState} {w : Nat} {oi : Option Nat} {s' : MState}
    (hg : genNext c s w = (oi, s')) (hwf : WF c s) : WF c s' := by
  obtain ⟨hfd, hfe, hfc, hfl, _, _⟩ := genNext_frame hg
  refine ⟨fun v hv => by rw [hfd]; exact hwf.doneHigh v hv,
          fun ev hev => hwf.logWorkers ev (by rwa [hfl] at hev),
          ?_,
          fun v j er hev => hwf.errBody v j er (by rwa [hfl] at hev),
          fun v j hev => hwf.okBody v j (by rwa [hfl] at hev)⟩
  show s'.errSlot = (s'.log.filterMap Event.errVal).head?
  rw [hfe, hfl]
  exact hwf.errHead

/-- Appending a non-body event of a spawned worker and marking that
worker finished preserves well-formedness. -/
theorem WF_finishLike {c : MCfg} {s' : MState} {w : Nat} (hwf : WF c s') (hwlt : w < c.wc)
    (ev : Event) (hw : ev.worker = w) (hnoerr : ev.errVal = none)
    (hnook : ∀ i, ev ≠ .ok w i) :
    WF c { s' with done := Function.update s'.done w true, log := s'.log ++ [ev] } := by
  constructor
  · intro v hv
    by_cases hvw : v = w
    · subst hvw; simp
    · simp only [Function.update_noteq hvw]; exact hwf.doneHigh v hv
  · intro ev' hev'
    rcases List.mem_append.mp hev' with h | h
    · exact hwf.logWorkers ev' h
    · rw [List.mem_singleton.mp h, hw]; exact hwlt
  · show s'.errSlot = ((s'.log ++ [ev]).filterMap Event.errVal).head?
    rw [List.filterMap_append]
    simp only [List.filterMap_cons, hnoerr, List.filterMap_nil, List.append_nil]
    exact hwf.errHead
  · intro v j er hev'
    rcases List.mem_append.mp hev' with h | h
    · exact hwf.errBody v j er h
    · rw [← List.mem_singleton.mp h] at hnoerr; simp at hnoerr
  · intro v j hev'
    rcases List.mem_append.mp hev' with h | h
    · exact hwf.okBody v j h
    · exfalso
      have hv : v = w := by
        have := List.mem_singleton.mp h; rw [← this] at hw; simpa using hw
      subst hv
      exact hnook j (List.mem_singleton.mp h).symm

/-- A successful body invocation preserves well-formedness. -/
theorem WF_logOk {c : MCfg} {s' : MState} {w i : Nat} (hwf : WF c s') (hwlt : w < c.wc)
    (hb : c.body i w = none) : WF c (logOk s' w i) := by
  constructor
  · intro v hv; simp only [logOk_done]; exact hwf.doneHigh v hv
  · intro ev' hev'
    rcases List.mem_append.mp hev' with h | h
    · exact hwf.logWorkers ev' h
    · rw [List.mem_singleton.mp h]; simpa using hwlt
  · show s'.errSlot = ((s'.log ++ [Event.ok w i]).filterMap Event.errVal).head?
    rw [List.filterMap_append]
    simp only [List.filterMap_cons, Event.errVal_ok, List.filterMap_nil, List.append_nil]
    exact hwf.errHead
  · intro v j er hev'
    rcases List.mem_append.mp hev' with h | h
    · exact hwf.errBody v j er h
    · exact absurd (List.mem_singleton.mp h) (by simp)
  · intro v j hev'
    rcases List.mem_append.mp hev' with h | h
    · exact hwf.okBody v j h
    · have := List.mem_singleton.mp h
      injection this with h1 h2
      subst h1; subst h2; exact hb

/-- A failing body invocation preserves well-formedness: `errOnce.Do`
stores the error exactly when the slot was still empty, which by
`errHead` is exactly when no error had been captured yet. -/
theorem WF_finishErr {c : MCfg} {s' : MState} {w i e : Nat} (hwf : WF c s') (hwlt : w < c.wc)
    (hb : c.body i w = some e) : WF c (finishErr c s' w i e) := by
  constructor
  · intro v hv
    by_cases hvw : v = w
    · subst hvw; simp
    · simp only [finishErr_done, Function.update_noteq hvw]; exact hwf.doneHigh v hv
  · intro ev' hev'
    simp only [finishErr_log] at hev'
    rcases List.mem_append.mp hev' with h | h
    · exact hwf.logWorkers ev' h
    · rw [List.mem_singleton.mp h]; simpa using hwlt
  · show (finishErr c s' w i e).errSlot =
      ((finishErr c s' w i e).log.filterMap Event.errVal).head?
    rw [finishErr_errSlot, finishErr_log, List.filterMap_append]
    simp only [List.filterMap_cons, Event.errVal_err, List.filterMap_nil]
    rw [hwf.errHead]
    show (if (MState.errList s').head? = none then some e else (MState.errList s').head?) =
      (MState.errList s' ++ [e]).head?
    rcases hl : MState.errList s' with _ | ⟨x, xs⟩ <;> simp
  · intro v j er hev'
    simp only [finishErr_log] at hev'
    rcases List.mem_append.mp hev' with h | h
    · exact hwf.errBody v j er h
    · have := List.mem_singleton.mp h
      injection this with h1 h2 h3
      subst h1; subst h2; subst h3; exact hb
  · intro v j hev'
    simp only [finishErr_log] at hev'
    rcases List.mem_append.mp hev' with h | h
    · exact hwf.okBody v j h
    · exact absurd (List.mem_singleton.mp h) (by simp)

/-- A worker that has not yet returned is a spawned worker. -/
theorem not_done_lt {c : MCfg} {s : MState} {w : Nat} (hwf : WF c s)
    (hd : s.done w = false) : w < c.wc := by
  by_contra hge
  exact absurd (hwf.doneHigh w (Nat.le_of_not_lt hge)) (by simp [hd])

theorem WF_step {c : MCfg} {s : MState} (hwf : WF c s) (w : Nat) : WF c (step c s w) := by
  have hk := step_kind c s w
  generalize hstep : step c s w = t at hk ⊢
  rcases hk with hd | ⟨s', hd, hg⟩ | ⟨i, s', hd, hg, hc⟩
    | ⟨i, s', hd, hg, hc, hb⟩ | ⟨i, e, s', hd, hg, hc, hb⟩
  · exact hwf
  · exact WF_finishLike (WF_genNext hg hwf) (not_done_lt hwf hd) (.exhaust w) rfl rfl (by simp)
  · exact WF_finishLike (WF_genNext hg hwf) (not_done_lt hwf hd) (.skipCancel w i) rfl rfl
      (by simp)
  · exact WF_logOk (WF_genNext hg hwf) (not_done_lt hwf hd) hb
  · exact WF_finishErr (WF_genNext hg hwf) (not_done_lt hwf hd) hb

@[simp] theorem blockLo_zero (wc N : Nat) : blockLo wc 0 N = 0 := by
  simp [blockLo]

theorem blockLo_mono (wc w N : Nat) : blockLo wc w N ≤ blockLo wc (w + 1) N := by
  unfold blockLo
  have h1 : w * (N / wc) ≤ (w + 1) * (N / wc) := Nat.mul_le_mul_right _ (Nat.le_succ w)
  have h2 : min w (N % wc) ≤ min (w + 1) (N % wc) :=
    min_le_min (Nat.le_succ w) le_rfl
  omega

/-- The block partition is exhaustive: the `wc`-th block boundary is `N`. -/
theorem blockLo_last (wc N : Nat) (h : 1 ≤ wc) : blockLo wc wc N = N := by
  unfold blockLo
  have hlt : N % wc < wc := Nat.mod_lt _ h
  rw [min_eq_right (Nat.le_of_lt hlt)]
  have := Nat.div_add_mod N wc
  omega

/-- Worker `w`'s assigned contiguous block, as the list of its indices in
ascending order. -/
def blockList (wc w N : Nat) : List Nat :=
  List.range' (blockLo wc w N) (blockHi wc w N - blockLo wc w N)

@[simp] theorem bodyIndexOf_ok (w v i : Nat) :
    Event.bodyIndexOf w (.ok v i) = if v = w then some i else none := by
  simp [Event.bodyIndexOf]

@[simp] theorem bodyIndexOf_err (w v i e : Nat) :
    Event.bodyIndexOf w (.err v i e) = if v = w then some i else none := by
  simp [Event.bodyIndexOf]

@[simp] theorem bodyIndexOf_skipCancel (w v i : Nat) :
    Event.bodyIndexOf w (.skipCancel v i) = none := by
  simp [Event.bodyIndexOf]

@[simp] theorem bodyIndexOf_exhaust (w v : Nat) :
    Event.bodyIndexOf w (.exhaust v) = none := by
  simp [Event.bodyIndexOf]

/-- The multiset of invoked indices splits as the sum over the spawned
workers of each worker's invoked indices. -/
theorem invoked_partition (wc : Nat) (l : List Event) (h : ∀ ev ∈ l, ev.worker < wc) :
    (↑(l.filterMap Event.bodyIndex) : Multiset Nat) =
      ∑ w ∈ Finset.range wc, (↑(l.filterMap (Event.bodyIndexOf w)) : Multiset Nat) := by
  induction l with
  | nil => simp
  | cons ev l ih =>
    have hw : ev.worker < wc := h ev (List.mem_cons_self ev l)
    have hl : ∀ ev' ∈ l, ev'.worker < wc := fun ev' hev' => h ev' (List.mem_cons_of_mem ev hev')
    rcases hb : ev.bodyIndex with _ | i
    · rw [List.filterMap_cons_none hb, ih hl]
      refine Finset.sum_congr rfl fun w _ => ?_
      rw [List.filterMap_cons_none]
      simp [Event.bodyIndexOf, hb]
    · rw [List.filterMap_cons_some hb]
      have hterm : ∀ w, (↑((ev :: l).filterMap (Event.bodyIndexOf w)) : Multiset Nat) =
          (↑(l.filterMap (Event.bodyIndexOf w)) : Multiset Nat) +
            (if w = ev.worker then {i} else 0) := by
        intro w
        by_cases hvw : ev.worker = w
        · rw [List.filterMap_cons_some
            (show Event.bodyIndexOf w ev = some i by simp [Event.bodyIndexOf, hvw, hb]),
            if_pos hvw.symm, ← Multiset.cons_coe, ← Multiset.singleton_add]
          exact add_comm _ _
        · rw [List.filterMap_cons_none (by simp [Event.bodyIndexOf, hvw]),
            if_neg fun hh => hvw hh.symm, add_zero]
      rw [Finset.sum_congr rfl fun w _ => hterm w, Finset.sum_add_distrib,
        Finset.sum_ite_eq' (Finset.range wc) ev.worker fun _ => ({i} : Multiset Nat),
        if_pos (Finset.mem_range.mpr hw), ← ih hl,
        ← Multiset.cons_coe, ← Multiset.singleton_add]
      exact add_comm _ _

/-- The blocks of the contiguous strategy cover `[0, N)` exactly. -/
theorem blocks_cover (wc N : Nat) (h : 1 ≤ wc) :
    ∑ w ∈ Finset.range wc, (↑(blockList wc w N) : Multiset Nat) =
      (↑(List.range N) : Multiset Nat) := by
  have hgen : ∀ k, k ≤ wc →
      ∑ w ∈ Finset.range k, (↑(blockList wc w N) : Multiset Nat) =
        (↑(List.range (blockLo wc k N)) : Multiset Nat) := by
    intro k
    induction k with
    | zero => intro _; simp
    | succ k ih =>
      intro hk
      rw [Finset.sum_range_succ, ih (Nat.le_of_succ_le hk)]
      have hmono := blockLo_mono wc k N
      show (↑(List.range (blockLo wc k N)) : Multiset Nat) +
          (↑(List.range' (blockLo wc k N) (blockLo wc (k + 1) N - blockLo wc k N)) :
            Multiset Nat) = ↑(List.range (blockLo wc (k + 1) N))
      rw [Multiset.coe_add, List.range_eq_range', List.range_eq_range']
      congr 1
      have := List.range'_append 0 (blockLo wc k N)
        (blockLo wc (k + 1) N - blockLo wc k N) 1
      simp only [Nat.zero_add, Nat.one_mul] at this
      rw [this]
      congr 1
      omega
  have := hgen wc le_rfl
  rwa [blockLo_last wc N h] at this

/-- Every reachable state is well-formed. -/
theorem reach_WF {c : MCfg} {cc : Bool} {s : MState} (h : Reach c cc s) : WF c s :=
  reach_ind (WF c) (WF_init c cc) (fun s w _ hwf => WF_step hwf w) s h

theorem invokedBy_append_other {l : List Event} {w : Nat} (ev : Event)
    (h : Event.bodyIndexOf w ev = none) :
    (l ++ [ev]).filterMap (Event.bodyIndexOf w) = l.filterMap (Event.bodyIndexOf w) := by
  rw [List.filterMap_append, List.filterMap_cons_none h, List.filterMap_nil, List.append_nil]

theorem invokedBy_append_self {l : List Event} {w i : Nat} (ev : Event)
    (h : Event.bodyIndexOf w ev = some i) :
    (l ++ [ev]).filterMap (Event.bodyIndexOf w) = l.filterMap (Event.bodyIndexOf w) ++ [i] := by
  rw [List.filterMap_append, List.filterMap_cons_some h, List.filterMap_nil]

theorem range'_snoc (lo cur : Nat) (h : lo ≤ cur) :
    List.range' lo (cur - lo) ++ [cur] = List.range' lo (cur + 1 - lo) := by
  have h1 : cur + 1 - lo = (cur - lo) + 1 := by omega
  rw [h1, List.range'_concat]
  congr 2
  omega

/-- Invariant of worker `w` under the contiguous strategy in a run
without context checks whose body never fails for `w`: the generator's
upper bound is the block's, the cursor stays inside the block, the
invoked indices are exactly the consumed prefix of the block in
ascending order, and the worker returns only upon exhaustion. -/
structure ContigWorkerInv (c : MCfg) (s : MState) (w : Nat) : Prop where
  hi_eq : (s.gens w).hi = blockHi c.wc w c.bound
  lo_le : blockLo c.wc w c.bound ≤ (s.gens w).cur
  cur_le : (s.gens w).cur ≤ (s.gens w).hi
  inv_eq : s.invokedBy w =
    List.range' (blockLo c.wc w c.bound) ((s.gens w).cur - blockLo c.wc w c.bound)
  done_exh : s.done w = true → (s.gens w).cur = (s.gens w).hi

theorem contigWorkerInv_init (c : MCfg) (cc : Bool) (w : Nat) (hw : w < c.wc) :
    ContigWorkerInv c (initState c cc) w := by
  refine ⟨rfl, le_rfl, blockLo_mono c.wc w c.bound, ?_, ?_⟩
  · simp [initState, MState.invokedBy, Nat.sub_self]
  · intro hd
    simp only [initState, decide_eq_true_eq] at hd
    omega

theorem contigWorkerInv_step {c : MCfg} {s : MState} {w : Nat} (v : Nat)
    (hst : c.strat = .contiguousBlocks) (hctx : c.hasCtx = false)
    (hbw : ∀ i, c.body i w = none) (hw : w < c.wc)
    (hinv : ContigWorkerInv c s w) : ContigWorkerInv c (step c s v) w := by
  have hk := step_kind c s v
  generalize hstep : step c s v = t at hk ⊢
  rcases hk with hd | ⟨s', hd, hg⟩ | ⟨i, s', hd, hg, hc⟩
    | ⟨i, s', hd, hg, hc, hb⟩ | ⟨i, e, s', hd, hg, hc, hb⟩
  · exact hinv
  · -- generator exhausted for `v`
    obtain ⟨hs', hcur⟩ := genNext_contig_none hst hg
    rw [hs']
    have hlog : (finishExhaust s v).invokedBy w = s.invokedBy w :=
      invokedBy_append_other _ (by simp)
    by_cases hvw : v = w
    · replace hvw := hvw.symm
      subst hvw
      have hcureq : (s.gens w).cur = (s.gens w).hi := le_antisymm hinv.cur_le hcur
      exact ⟨hinv.hi_eq, hinv.lo_le, hinv.cur_le, hlog.trans hinv.inv_eq, fun _ => hcureq⟩
    · refine ⟨hinv.hi_eq, hinv.lo_le, hinv.cur_le, hlog.trans hinv.inv_eq, ?_⟩
      intro hdw
      apply hinv.done_exh
      rwa [finishExhaust_done, Function.update_noteq fun hh => hvw hh.symm] at hdw
  · -- context check: impossible, this is the no-context variant
    rw [hctx] at hc
    simp at hc
  · -- body ran successfully for `v` on index `i`
    obtain ⟨hieq, hlt, hs'⟩ := genNext_contig_some hst hg
    obtain ⟨hfd, _, _, hfl, _, hfg⟩ := genNext_frame hg
    by_cases hvw : v = w
    · replace hvw := hvw.symm
      subst hvw
      have hgw : s'.gens w = ⟨(s.gens w).cur + 1, (s.gens w).hi⟩ := by
        rw [hs']
        exact Function.update_same _ _ _
      have hlog : (logOk s' w i).invokedBy w = s.invokedBy w ++ [i] := by
        show (s'.log ++ [Event.ok w i]).filterMap (Event.bodyIndexOf w) = _
        rw [hfl]
        exact invokedBy_append_self _ (by simp)
      refine ⟨?_, ?_, ?_, ?_, ?_⟩
      · rw [logOk_gens, hgw]; exact hinv.hi_eq
      · rw [logOk_gens, hgw]; exact Nat.le_succ_of_le hinv.lo_le
      · rw [logOk_gens, hgw]
        show (s.gens w).cur + 1 ≤ (s.gens w).hi
        omega
      · rw [logOk_gens, hgw, hlog, hinv.inv_eq, hieq]
        exact range'_snoc _ _ hinv.lo_le
      · intro hdw
        rw [logOk_done, hfd] at hdw
        exact absurd hdw (by simp [hd])
    · have hgw : s'.gens w = s.gens w := hfg w fun hh => hvw hh.symm
      have hlog : (logOk s' v i).invokedBy w = s.invokedBy w := by
        show (s'.log ++ [Event.ok v i]).filterMap (Event.bodyIndexOf w) = _
        rw [hfl]
        exact invokedBy_append_other _ (by simp [hvw])
      refine ⟨?_, ?_, ?_, ?_, ?_⟩
      · rw [logOk_gens, hgw]; exact hinv.hi_eq
      · rw [logOk_gens, hgw]; exact hinv.lo_le
      · rw [logOk_gens, hgw]; exact hinv.cur_le
      · rw [logOk_gens, hgw, hlog]; exact hinv.inv_eq
      · intro hdw
        rw [logOk_gens, hgw]
        rw [logOk_done, hfd] at hdw
        exact hinv.done_exh hdw
  · -- body failed for `v` on index `i`
    obtain ⟨hieq, hlt, hs'⟩ := genNext_contig_some hst hg
    obtain ⟨hfd, _, _, hfl, _, hfg⟩ := genNext_frame hg
    by_cases hvw : v = w
    · replace hvw := hvw.symm
      subst hvw
      exact absurd hb (by simp [hbw])
    · have hgw : s'.gens w = s.gens w := hfg w fun hh => hvw hh.symm
      have hlog : (finishErr c s' v i e).invokedBy w = s.invokedBy w := by
        show ((finishErr c s' v i e).log).filterMap (Event.bodyIndexOf w) = _
        rw [finishErr_log, hfl]
        exact invokedBy_append_other _ (by simp [hvw])
      refine ⟨?_, ?_, ?_, ?_, ?_⟩
      · rw [finishErr_gens, hgw]; exact hinv.hi_eq
      · rw [finishErr_gens, hgw]; exact hinv.lo_le
      · rw [finishErr_gens, hgw]; exact hinv.cur_le
      · rw [finishErr_gens, hgw, hlog]; exact hinv.inv_eq
      · intro hdw
        rw [finishErr_gens, hgw]
        rw [finishErr_done, Function.update_noteq fun hh => hvw hh.symm, hfd] at hdw
        exact hinv.done_exh hdw

/-- The contiguous worker invariant holds in every reachable state. -/
theorem reach_contigWorkerInv {c : MCfg} {cc : Bool} {s : MState} {w : Nat}
    (hst : c.strat = .contiguousBlocks) (hctx : c.hasCtx = false)
    (hbw : ∀ i, c.body i w = none) (hw : w < c.wc)
    (h : Reach c cc s) : ContigWorkerInv c s w :=
  reach_ind (fun s0 => ContigWorkerInv c s0 w) (contigWorkerInv_init c cc w hw)
    (fun _ v _ hinv => contigWorkerInv_step v hst hctx hbw hw hinv) s h

/-- A finished worker under the contiguous strategy has invoked the body
on exactly its assigned block, in ascending order. -/
theorem contig_done_block {c : MCfg} {cc : Bool} {s : MState} {w : Nat}
    (hst : c.strat = .contiguousBlocks) (hctx : c.hasCtx = false)
    (hbw : ∀ i, c.body i w = none) (hw : w < c.wc)
    (h : Reach c cc s) (hdone : s.done w = true) :
    s.invokedBy w = blockList c.wc w c.bound := by
  have hinv := reach_contigWorkerInv hst hctx hbw hw h
  rw [hinv.inv_eq, hinv.done_exh hdone, hinv.hi_eq, blockList]

/-- Invariant of a run under the atomic counter strategy without context
checks and with a body that never fails: the invoked indices are exactly
the counter values handed out below the bound, and a worker returns only
once the counter has passed the bound. -/
structure AtomicInv (c : MCfg) (s : MState) : Prop where
  inv_eq : (↑s.invoked : Multiset Nat) = ↑(List.range (min s.counter c.bound))
  done_counter : ∀ w, w < c.wc → s.done w = true → c.bound ≤ s.counter

theorem atomicInv_init (c : MCfg) (cc : Bool) : AtomicInv c (initState c cc) := by
  constructor
  · simp [initState, MState.invoked]
  · intro w hw hd
    simp only [initState, decide_eq_true_eq] at hd
    omega

theorem atomicInv_step {c : MCfg} {s : MState} (v : Nat)
    (hst : c.strat = .atomicCounter) (hctx : c.hasCtx = false)
    (hb0 : ∀ i w, c.body i w = none)
    (hinv : AtomicInv c s) : AtomicInv c (step c s v) := by
  have hk := step_kind c s v
  generalize hstep : step c s v = t at hk ⊢
  rcases hk with hd | ⟨s', hd, hg⟩ | ⟨i, s', hd, hg, hc⟩
    | ⟨i, s', hd, hg, hc, hb⟩ | ⟨i, e, s', hd, hg, hc, hb⟩
  · exact hinv
  · -- exhausted: the counter had already passed the bound
    obtain ⟨hge, hs'⟩ := genNext_atomic_none hst hg
    subst hs'
    constructor
    · have hlog : (finishExhaust { s with counter := s.counter + 1 } v).invoked = s.invoked := by
        show (s.log ++ [Event.exhaust v]).filterMap Event.bodyIndex = _
        rw [List.filterMap_append]
        simp [MState.invoked]
      rw [hlog, hinv.inv_eq]
      simp only [finishExhaust_counter]
      congr 2
      omega
    · intro w hwlt _
      show c.bound ≤ s.counter + 1
      omega
  · rw [hctx] at hc
    simp at hc
  · -- body ran on the claimed counter value
    obtain ⟨hieq, hltb, hs'⟩ := genNext_atomic_some hst hg
    subst hieq
    subst hs'
    constructor
    · have hlog : (logOk { s with counter := s.counter + 1 } v s.counter).invoked =
          s.invoked ++ [s.counter] := by
        show (s.log ++ [Event.ok v s.counter]).filterMap Event.bodyIndex = _
        rw [List.filterMap_append]
        simp [MState.invoked]
      rw [hlog, ← Multiset.coe_add, hinv.inv_eq]
      simp only [logOk_counter]
      have h1 : min s.counter c.bound = s.counter := by omega
      have h2 : min (s.counter + 1) c.bound = s.counter + 1 := by omega
      rw [h1, h2, Multiset.coe_add]
      congr 1
      exact (List.range_succ s.counter).symm
    · intro w hwlt hdw
      show c.bound ≤ s.counter + 1
      have := hinv.done_counter w hwlt
      rw [logOk_done] at hdw
      have := this hdw
      omega
  · exact absurd hb (by simp [hb0])

/-- The atomic counter invariant holds in every reachable state. -/
theorem reach_atomicInv {c : MCfg} {cc : Bool} {s : MState}
    (hst : c.strat = .atomicCounter) (hctx : c.hasCtx = false)
    (hb0 : ∀ i w, c.body i w = none)
    (h : Reach c cc s) : AtomicInv c s :=
  reach_ind (AtomicInv c) (atomicInv_init c cc)
    (fun _ v _ hinv => atomicInv_step v hst hctx hb0 hinv) s h

/-- The serial loop of `SerialExecutor`:
`for i := 0; i < N; i++ { if err := loopBody(i, 0); err != nil { return err } }`.
`k` is the number of iterations left; returns the list of
`(index, goroutine id)` pairs the body was invoked on, in order, and the
returned error. -/
def serialGo (body : Nat → Nat → Option Nat) (i : Nat) : Nat → List (Nat × Nat) × Option Nat
  | 0 => ([], none)
  | k + 1 =>
      match body i 0 with
      | some e => ([(i, 0)], some e)
      | none =>
          let r := serialGo body (i + 1) k
          ((i, 0) :: r.1, r.2)

/-- `SerialExecutor().For(N, loopBody)`: the Go loop guard `i < N` holds
for exactly the first `N.toNat` values of `i`. -/
def SerialExecutorFor (N : Int) (body : Nat → Nat → Option Nat) :
    List (Nat × Nat) × Option Nat :=
  serialGo body 0 N.toNat


/-! ## Coverage of completed runs -/

/-- In a completed no-context run whose body never fails, the multiset of
invoked indices is exactly `{0, …, bound-1}`, under either strategy. -/
theorem run_coverage {c : MCfg} {cc : Bool} {s : MState}
    (hctx : c.hasCtx = false) (hwc : 1 ≤ c.wc) (hb0 : ∀ i w, c.body i w = none)
    (h : Reach c cc s) (hdone : allDone c.wc s) :
    (↑s.invoked : Multiset Nat) = ↑(List.range c.bound) := by
  cases hst : c.strat
  · -- contiguous blocks
    have hwf := reach_WF h
    calc (↑s.invoked : Multiset Nat)
        = ∑ w ∈ Finset.range c.wc,
            (↑(s.log.filterMap (Event.bodyIndexOf w)) : Multiset Nat) :=
          invoked_partition c.wc s.log hwf.logWorkers
      _ = ∑ w ∈ Finset.range c.wc, (↑(blockList c.wc w c.bound) : Multiset Nat) := by
          refine Finset.sum_congr rfl fun w hwmem => ?_
          have hw : w < c.wc := Finset.mem_range.mp hwmem
          have hblk := contig_done_block hst hctx (fun i => hb0 i w) hw h (hdone w hw)
          rw [show s.log.filterMap (Event.bodyIndexOf w) = blockList c.wc w c.bound
            from hblk]
      _ = ↑(List.range c.bound) := blocks_cover c.wc c.bound hwc
  · -- atomic counter
    have hinv := reach_atomicInv hst hctx hb0 h
    have hcnt : c.bound ≤ s.counter := hinv.done_counter 0 hwc (hdone 0 hwc)
    rw [hinv.inv_eq]
    congr 2
    omega

/-- C1: for every `N ≥ 0` and configured worker count `≥ 1`, and a loop
body that never returns an error, every completed run of
`Executor.For(N, body)` invokes the body exactly once for each index in
`[0, N)` and never for any other index — the multiset of indices passed
to the body across all workers equals `{0, …, N-1}` with no duplicates —
under both built-in strategies (the executor's effective strategy is
always one of the two, and the theorem covers every executor). -/
theorem C1_coverage_partition (e : Executor) (N : Int) (body : Nat → Nat → Option Nat)
    (sched : List Nat) (hN : 0 ≤ N) (hwc : 1 ≤ e.numGoroutines)
    (hb0 : ∀ i w, body i w = none)
    (hdone : allDone e.numGoroutines (e.ForRun N body sched)) :
    (↑(e.ForRun N body sched).invoked : Multiset Nat) = ↑(List.range N.toNat) :=
  run_coverage rfl hwc hb0 ⟨sched, rfl⟩ hdone

/-- Witness for C1: a concrete completed run (two workers, atomic counter
strategy, `N = 5`) covering `{0, …, 4}`. -/
theorem C1_coverage_partition_witness :
    ((0 : Int) ≤ 5 ∧ 1 ≤ ((NewExecutor 2).WithStrategy .fetchNextIndex).numGoroutines ∧
      allDone ((NewExecutor 2).WithStrategy .fetchNextIndex).numGoroutines
        (((NewExecutor 2).WithStrategy .fetchNextIndex).ForRun 5 (fun _ _ => none)
          [0, 1, 0, 1, 0, 1, 0, 1])) ∧
    (↑((((NewExecutor 2).WithStrategy .fetchNextIndex)).ForRun 5 (fun _ _ => none)
        [0, 1, 0, 1, 0, 1, 0, 1]).invoked : Multiset Nat) = ↑(List.range (5 : Int).toNat) :=
  ⟨⟨by decide, by decide, by decide⟩,
    C1_coverage_partition ((NewExecutor 2).WithStrategy .fetchNextIndex) 5 (fun _ _ => none)
      [0, 1, 0, 1, 0, 1, 0, 1] (by decide) (by decide) (fun _ _ => rfl) (by decide)⟩


/-! ## Error aggregation of `For` -/

/-- Any error held by the single-assignment slot was returned by some
invocation of the loop body and is recorded in the log. -/
theorem errSlot_from_body {c : MCfg} {cc : Bool} {s : MState} (h : Reach c cc s) :
    ∀ er, s.errSlot = some er →
      ∃ w i, Event.err w i er ∈ s.log ∧ c.body i w = some er := by
  have hwf := reach_WF h
  intro er her
  rw [hwf.errHead] at her
  have hmem : er ∈ s.errList :=
    List.mem_of_mem_head? (Option.mem_def.mpr her)
  obtain ⟨ev, hev, hval⟩ := List.mem_filterMap.mp hmem
  cases ev with
  | ok w i => exact absurd hval (by simp)
  | skipCancel w i => exact absurd hval (by simp)
  | exhaust w => exact absurd hval (by simp)
  | err w i e0 =>
    have he0 : e0 = er := by simpa using hval
    subst he0
    exact ⟨w, i, hev, hwf.errBody w i e0 hev⟩

/-- C2: every call of `Executor.For` surfaces at most one error, namely
the first one captured into the single-assignment slot (the head of the
capture-ordered list of body errors); every error it returns was
returned by some invocation of the loop body, and all later captures are
discarded. -/
theorem C2_first_error_wins (e : Executor) (N : Int) (body : Nat → Nat → Option Nat)
    (sched : List Nat) :
    (e.ForRun N body sched).errSlot = (e.ForRun N body sched).errList.head?
    ∧ (∀ w i er, Event.err w i er ∈ (e.ForRun N body sched).log → body i w = some er)
    ∧ (∀ er, (e.ForRun N body sched).errSlot = some er →
        ∃ w i, Event.err w i er ∈ (e.ForRun N body sched).log ∧ body i w = some er) := by
  have hreach : Reach (e.forCfg N body) false (e.ForRun N body sched) := ⟨sched, rfl⟩
  exact ⟨(reach_WF hreach).errHead, (reach_WF hreach).errBody, errSlot_from_body hreach⟩

/-- Witness for C2: a concrete two-worker contiguous run in which worker
0 errs on index 0 (error 7) while worker 1 completes indices 2 and 3. -/
theorem C2_first_error_wins_witness :
    (((NewExecutor 4).WithNumGoroutines 2).ForRun 4
        (fun i _ => if i = 0 then some 7 else none) [0, 1, 1, 1, 0]).errSlot =
      (((NewExecutor 4).WithNumGoroutines 2).ForRun 4
        (fun i _ => if i = 0 then some 7 else none) [0, 1, 1, 1, 0]).errList.head?
    ∧ (fun i (_ : Nat) => if i = 0 then some 7 else none) 0 0 = some 7
    ∧ (∃ w i, Event.err w i 7 ∈ (((NewExecutor 4).WithNumGoroutines 2).ForRun 4
        (fun i _ => if i = 0 then some 7 else none) [0, 1, 1, 1, 0]).log ∧
        (fun i (_ : Nat) => if i = 0 then some 7 else none) i w = some 7) :=
  ⟨(C2_first_error_wins ((NewExecutor 4).WithNumGoroutines 2) 4
      (fun i _ => if i = 0 then some 7 else none) [0, 1, 1, 1, 0]).1,
   (C2_first_error_wins ((NewExecutor 4).WithNumGoroutines 2) 4
      (fun i _ => if i = 0 then some 7 else none) [0, 1, 1, 1, 0]).2.1 0 0 7 (by decide),
   (C2_first_error_wins ((NewExecutor 4).WithNumGoroutines 2) 4
      (fun i _ => if i = 0 then some 7 else none) [0, 1, 1, 1, 0]).2.2 7 (by decide)⟩


/-! ## Degenerate iteration counts and worker counts -/

/-- Invariant of any run with iteration bound `0`: no body invocation
ever happens, the error slot stays empty, and every contiguous generator
stays exhausted. -/
structure ZeroInv (c : MCfg) (s : MState) : Prop where
  no_body : ∀ ev ∈ s.log, ev.isBody = false
  slot_none : s.errSlot = none
  gens_exh : ∀ w, (s.gens w).hi ≤ (s.gens w).cur

theorem zeroInv_init (c : MCfg) (cc : Bool) (hb : c.bound = 0) :
    ZeroInv c (initState c cc) := by
  refine ⟨by simp [initState], rfl, fun w => ?_⟩
  show blockHi c.wc w c.bound ≤ blockLo c.wc w c.bound
  rw [hb]
  show blockLo c.wc (w + 1) 0 ≤ blockLo c.wc w 0
  simp [blockLo]

/-- With bound `0` no generator can hand out an index. -/
theorem zeroInv_no_fetch {c : MCfg} {s : MState} {v i : Nat} {s' : MState}
    (hb : c.bound = 0) (hinv : ZeroInv c s)
    (hg : genNext c s v = (some i, s')) : False := by
  cases hst : c.strat
  · obtain ⟨_, hlt, _⟩ := genNext_contig_some hst hg
    have := hinv.gens_exh v
    omega
  · obtain ⟨_, hlt, _⟩ := genNext_atomic_some hst hg
    omega

theorem zeroInv_step {c : MCfg} {s : MState} (v : Nat) (hb : c.bound = 0)
    (hinv : ZeroInv c s) : ZeroInv c (step c s v) := by
  have hk := step_kind c s v
  generalize hstep : step c s v = t at hk ⊢
  rcases hk with hd | ⟨s', hd, hg⟩ | ⟨i, s', hd, hg, hc⟩
    | ⟨i, s', hd, hg, hc, hb'⟩ | ⟨i, e, s', hd, hg, hc, hb'⟩
  · exact hinv
  · obtain ⟨hfd, hfe, hfc, hfl, _, _⟩ := genNext_frame hg
    refine ⟨?_, ?_, ?_⟩
    · intro ev hev
      rw [finishExhaust_log, hfl] at hev
      rcases List.mem_append.mp hev with h1 | h1
      · exact hinv.no_body ev h1
      · rw [List.mem_singleton.mp h1]; rfl
    · rw [finishExhaust_errSlot, hfe]; exact hinv.slot_none
    · intro u
      rw [finishExhaust_gens]
      cases hst : c.strat
      · obtain ⟨hs', _⟩ := genNext_contig_none hst hg
        rw [hs']
        exact hinv.gens_exh u
      · obtain ⟨_, hs'⟩ := genNext_atomic_none hst hg
        rw [hs']
        exact hinv.gens_exh u
  · exact absurd (zeroInv_no_fetch hb hinv hg) not_false
  · exact absurd (zeroInv_no_fetch hb hinv hg) not_false
  · exact absurd (zeroInv_no_fetch hb hinv hg) not_false

/-- Any run with bound `0` invokes the body zero times and returns no
error. -/
theorem run_zero {c : MCfg} {cc : Bool} {s : MState} (hb : c.bound = 0)
    (h : Reach c cc s) : s.invoked = [] ∧ s.errSlot = none := by
  have hinv := reach_ind (ZeroInv c) (zeroInv_init c cc hb)
    (fun _ v _ hi => zeroInv_step v hb hi) s h
  refine ⟨?_, hinv.slot_none⟩
  rw [MState.invoked, List.filterMap_eq_nil_iff]
  intro ev hev
  have hbev := hinv.no_body ev hev
  unfold Event.isBody at hbev
  exact Option.not_isSome_iff_eq_none.mp (by simp [hbev])

/-- C7: for every `N ≤ 0` and every configuration — any executor (any
worker count, any built-in strategy), both `For` and `ForWithContext`
under any schedule and any caller context, and `SerialExecutor` — the
call invokes the loop body zero times and returns nil. -/
theorem C7_degenerate_N (e : Executor) (N : Int) (body : Nat → Nat → Option Nat)
    (sched : List Nat) (cc : Bool) (hN : N ≤ 0) :
    ((e.ForRun N body sched).invoked = [] ∧ (e.ForRun N body sched).errSlot = none)
    ∧ ((e.ForWithContextRun cc N body sched).invoked = []
        ∧ (e.ForWithContextRun cc N body sched).errSlot = none)
    ∧ SerialExecutorFor N body = ([], none) := by
  have hb : N.toNat = 0 := Int.toNat_of_nonpos hN
  refine ⟨run_zero hb ⟨sched, rfl⟩, run_zero hb ⟨sched, rfl⟩, ?_⟩
  show serialGo body 0 N.toNat = ([], none)
  rw [hb]
  rfl

/-- Witness for C7: `N = -3`, one worker, a body that would err. -/
theorem C7_degenerate_N_witness :
    (-3 : Int) ≤ 0 ∧
    (((NewExecutor 1).ForRun (-3) (fun _ _ => some 9) [0, 0]).invoked = []
      ∧ ((NewExecutor 1).ForRun (-3) (fun _ _ => some 9) [0, 0]).errSlot = none)
    ∧ (((NewExecutor 1).ForWithContextRun false (-3) (fun _ _ => some 9) [0, 0]).invoked = []
      ∧ ((NewExecutor 1).ForWithContextRun false (-3) (fun _ _ => some 9) [0, 0]).errSlot = none)
    ∧ SerialExecutorFor (-3) (fun _ _ => some 9) = ([], none) :=
  ⟨by decide,
   C7_degenerate_N (NewExecutor 1) (-3) (fun _ _ => some 9) [0, 0] false (by decide)⟩

/-- With a worker count of `0`, no worker is ever spawned: every step of
every schedule is a stutter and the run stays in its initial state. -/
theorem run_wc_zero (c : MCfg) (cc : Bool) (hwc : c.wc = 0) (sched : List Nat) :
    run c cc sched = initState c cc := by
  suffices h : ∀ l s0, s0 = initState c cc → List.foldl (step c) s0 l = initState c cc by
    exact h sched _ rfl
  intro l
  induction l with
  | nil => intro s0 hs0; exact hs0
  | cons v l ih =>
    intro s0 hs0
    subst hs0
    rw [List.foldl_cons, step_stutter (by simp [initState, hwc])]
    exact ih _ rfl

/-- C9 counterexample: with `WithNumGoroutines 0` and `N = 1`, `For`
neither clamps the worker count (index 0 is never processed) nor fails
fast (it returns nil): all zero workers are "done", the body is never
invoked, and no error is returned — refuting the claim that one of the
two defensive behaviors is implemented. -/
theorem C9_counterexample_zero_workers :
    allDone ((NewExecutor 8).WithNumGoroutines 0).numGoroutines
        (((NewExecutor 8).WithNumGoroutines 0).ForRun 1 (fun _ _ => none) [0, 1, 2])
    ∧ (((NewExecutor 8).WithNumGoroutines 0).ForRun 1 (fun _ _ => none) [0, 1, 2]).invoked = []
    ∧ (((NewExecutor 8).WithNumGoroutines 0).ForRun 1 (fun _ _ => none) [0, 1, 2]).errSlot
        = none := by
  refine ⟨by decide, by decide, by decide⟩

/-- C9 as amended: when a worker count of `0` is configured, `For` spawns
no workers, the call completes immediately, the body is never invoked for
any index, and nil is returned — the code neither clamps the count to 1
nor fails fast. -/
theorem C9_zero_workers_silent_nil (e : Executor) (N : Int)
    (body : Nat → Nat → Option Nat) (sched : List Nat) (h : e.numGoroutines = 0) :
    allDone e.numGoroutines (e.ForRun N body sched)
    ∧ (e.ForRun N body sched).invoked = []
    ∧ (e.ForRun N body sched).errSlot = none := by
  have hrun : e.ForRun N body sched = initState (e.forCfg N body) false :=
    run_wc_zero (e.forCfg N body) false h sched
  rw [hrun]
  refine ⟨fun w hw => ?_, rfl, rfl⟩
  simp [initState]
  omega

/-- Witness for the amended C9. -/
theorem C9_zero_workers_silent_nil_witness :
    ((NewExecutor 8).WithNumGoroutines 0).numGoroutines = 0 ∧
    (allDone ((NewExecutor 8).WithNumGoroutines 0).numGoroutines
        (((NewExecutor 8).WithNumGoroutines 0).ForRun 2 (fun _ _ => some 3) [0, 1])
    ∧ (((NewExecutor 8).WithNumGoroutines 0).ForRun 2 (fun _ _ => some 3) [0, 1]).invoked = []
    ∧ (((NewExecutor 8).WithNumGoroutines 0).ForRun 2 (fun _ _ => some 3) [0, 1]).errSlot
        = none) :=
  ⟨rfl, C9_zero_workers_silent_nil ((NewExecutor 8).WithNumGoroutines 0) 2
    (fun _ _ => some 3) [0, 1] rfl⟩

/-- C8: strategy selection.  With no strategy configured — a fresh
executor, or after `WithStrategy` with `StrategyUseDefaults` or any
unrecognized tag, which resets the strategy field to nil rather than
erring — both `For` and `ForWithContext` use the contiguous blocks
strategy; `StrategyPreassignIndices` selects the contiguous blocks
strategy and `StrategyFetchNextIndex` the atomic counter strategy. -/
theorem C8_strategy_selection (e : Executor) (tag n : Nat) (N : Int) (cc : Bool)
    (body : Nat → Nat → Option Nat) (sched : List Nat) :
    (e.WithStrategy .useDefaults).parallelStrategy = none
    ∧ (e.WithStrategy (.unrecognized tag)).parallelStrategy = none
    ∧ (e.WithStrategy .useDefaults).effectiveStrategy = .contiguousBlocks
    ∧ (e.WithStrategy (.unrecognized tag)).effectiveStrategy = .contiguousBlocks
    ∧ (e.WithStrategy .preassignIndices).effectiveStrategy = .contiguousBlocks
    ∧ (e.WithStrategy .fetchNextIndex).effectiveStrategy = .atomicCounter
    ∧ (NewExecutor n).effectiveStrategy = .contiguousBlocks
    ∧ e.ForRun N body sched =
        run ⟨e.effectiveStrategy, e.numGoroutines, N.toNat, false, body⟩ false sched
    ∧ e.ForWithContextRun cc N body sched =
        run ⟨e.effectiveStrategy, e.numGoroutines, N.toNat, true, body⟩ cc sched :=
  ⟨rfl, rfl, rfl, rfl, rfl, rfl, rfl, rfl, rfl⟩


/-! ## Cancellation in `ForWithContext` -/

/-- A non-body event has no error value. -/
theorem errVal_eq_none_of_not_body {ev : Event} (h : ev.isBody = false) :
    ev.errVal = none := by
  cases ev <;> simp_all [Event.isBody]

/-- Decomposing a snoc around a distinguished element. -/
theorem append_singleton_decomp {α : Type} {l l1 l2 : List α} {x y : α}
    (h : l ++ [y] = l1 ++ x :: l2) :
    (∃ l2', l = l1 ++ x :: l2' ∧ l2 = l2' ++ [y]) ∨ (l1 = l ∧ x = y ∧ l2 = []) := by
  rcases List.eq_nil_or_concat l2 with h2 | ⟨l2', b, h2⟩
  · subst h2
    right
    obtain ⟨h3, h4⟩ := List.append_inj' h rfl
    injection h4 with h5 _
    exact ⟨h3.symm, h5.symm, rfl⟩
  · subst h2
    simp only [List.concat_eq_append] at h ⊢
    left
    rw [show l1 ++ x :: (l2' ++ [b]) = (l1 ++ x :: l2') ++ [b] by simp] at h
    obtain ⟨h3, h4⟩ := List.append_inj' h rfl
    injection h4 with h5 _
    exact ⟨l2', h3, by rw [h5]⟩

/-- Invariant of every `ForWithContext` run: an error in the log means
the derived context has been cancelled; a non-empty error slot means the
same; and after any logged error, no body invocation appears in the log
ever again. -/
structure CtxInv (c : MCfg) (s : MState) : Prop where
  errCancel : (∃ w i e0, Event.err w i e0 ∈ s.log) → s.cancelled = true
  slotCancel : s.errSlot ≠ none → s.cancelled = true
  afterErr : ∀ l1 w i e0 l2, s.log = l1 ++ Event.err w i e0 :: l2 →
    ∀ ev ∈ l2, ev.isBody = false

theorem ctxInv_init (c : MCfg) (cc : Bool) : CtxInv c (initState c cc) := by
  refine ⟨?_, ?_, ?_⟩
  · rintro ⟨w, i, e0, hmem⟩
    exact absurd hmem (by simp [initState])
  · intro h
    exact absurd rfl h
  · intro l1 w i e0 l2 hdec
    exact absurd hdec (by simp [initState])

/-- `CtxInv` is insensitive to the generator fetch. -/
theorem ctxInv_genNext {c : MCfg} {s : MState} {w : Nat} {oi : Option Nat} {s' : MState}
    (hg : genNext c s w = (oi, s')) (hinv : CtxInv c s) : CtxInv c s' := by
  obtain ⟨_, hfe, hfc, hfl, _, _⟩ := genNext_frame hg
  refine ⟨?_, ?_, ?_⟩
  · rintro ⟨w', i, e0, hmem⟩
    rw [hfl] at hmem
    rw [hfc]
    exact hinv.errCancel ⟨w', i, e0, hmem⟩
  · intro hne
    rw [hfe] at hne
    rw [hfc]
    exact hinv.slotCancel hne
  · intro l1 w' i e0 l2 hdec
    rw [hfl] at hdec
    exact hinv.afterErr l1 w' i e0 l2 hdec

/-- Appending a non-body event while leaving slot and cancellation flag
untouched preserves `CtxInv`. -/
theorem ctxInv_append_nonbody {c : MCfg} {s : MState} (hinv : CtxInv c s)
    (ev : Event) (hnb : ev.isBody = false) (d : Nat → Bool) :
    CtxInv c { s with done := d, log := s.log ++ [ev] } := by
  refine ⟨?_, hinv.slotCancel, ?_⟩
  · rintro ⟨w, i, e0, hmem⟩
    rcases List.mem_append.mp hmem with h1 | h1
    · exact hinv.errCancel ⟨w, i, e0, h1⟩
    · have heq := List.mem_singleton.mp h1
      rw [← heq] at hnb
      simp at hnb
  · intro l1 w i e0 l2 hdec
    rcases append_singleton_decomp hdec with ⟨l2', hl, hl2⟩ | ⟨_, hxy, hl2⟩
    · intro ev' hev'
      rw [hl2] at hev'
      rcases List.mem_append.mp hev' with h1 | h1
      · exact hinv.afterErr l1 w i e0 l2' hl ev' h1
      · rw [List.mem_singleton.mp h1]
        exact hnb
    · rw [← hxy] at hnb
      simp at hnb

theorem ctxInv_step {c : MCfg} {s : MState} (v : Nat) (hctx : c.hasCtx = true)
    (hinv : CtxInv c s) : CtxInv c (step c s v) := by
  have hk := step_kind c s v
  generalize hstep : step c s v = t at hk ⊢
  rcases hk with hd | ⟨s', hd, hg⟩ | ⟨i, s', hd, hg, hc⟩
    | ⟨i, s', hd, hg, hc, hb⟩ | ⟨i, e, s', hd, hg, hc, hb⟩
  · exact hinv
  · exact ctxInv_append_nonbody (ctxInv_genNext hg hinv) (.exhaust v) rfl
      (Function.update s'.done v true)
  · exact ctxInv_append_nonbody (ctxInv_genNext hg hinv) (.skipCancel v i) rfl
      (Function.update s'.done v true)
  all_goals {
    have hinv' := ctxInv_genNext hg hinv
    have hcf : s'.cancelled = false := by
      cases hcv : s'.cancelled
      · rfl
      · rw [hctx, hcv] at hc
        simp at hc
    have hnoerr : ∀ w' i' e0, Event.err w' i' e0 ∉ s'.log := by
      intro w' i' e0 hmem
      exact absurd (hinv'.errCancel ⟨w', i', e0, hmem⟩) (by rw [hcf]; simp)
    first
    | -- successful body invocation: append `ok`, slot and flag untouched
      (refine ⟨?_, ?_, ?_⟩
       · rintro ⟨w', i', e0, hmem⟩
         rcases List.mem_append.mp hmem with h1 | h1
         · exact absurd h1 (hnoerr w' i' e0)
         · exact absurd (List.mem_singleton.mp h1) (by simp)
       · intro hne
         exact hinv'.slotCancel hne
       · intro l1 w' i' e0 l2 hdec
         rcases append_singleton_decomp hdec with ⟨l2', hl, hl2⟩ | ⟨_, hxy, hl2⟩
         · exfalso
           apply hnoerr w' i' e0
           rw [hl]
           exact List.mem_append.mpr (Or.inr (List.mem_cons_self _ _))
         · exact absurd hxy (by simp))
    | -- failing body invocation: slot written and context cancelled
      (have hslotnone : s'.errSlot = none := by
         cases hse : s'.errSlot
         · rfl
         · exact absurd (hinv'.slotCancel (by rw [hse]; simp)) (by rw [hcf]; simp)
       have hcanc : (finishErr c s' v i e).cancelled = true := by
         rw [finishErr_cancelled, if_pos hslotnone, hcf, hctx]
         rfl
       refine ⟨fun _ => hcanc, fun _ => hcanc, ?_⟩
       intro l1 w' i' e0 l2 hdec
       rw [finishErr_log] at hdec
       rcases append_singleton_decomp hdec with ⟨l2', hl, hl2⟩ | ⟨_, _, hl2⟩
       · exfalso
         apply hnoerr w' i' e0
         rw [hl]
         exact List.mem_append.mpr (Or.inr (List.mem_cons_self _ _))
       · intro ev' hev'
         rw [hl2] at hev'
         exact absurd hev' (List.not_mem_nil ev'))
  }

theorem reach_ctxInv {c : MCfg} {cc : Bool} {s : MState} (hctx : c.hasCtx = true)
    (h : Reach c cc s) : CtxInv c s :=
  reach_ind (CtxInv c) (ctxInv_init c cc) (fun _ v _ hi => ctxInv_step v hctx hi) s h

/-- C3: in any `ForWithContext` run, once the log contains an error
event, nothing after it is a body invocation (every worker checks the
derived context before invoking the body, and the cancellation triggered
by the error stops every sibling at its next pre-body check); moreover
the erring worker's error is the one recorded in the single-assignment
slot and the derived context ends up cancelled. -/
theorem C3_error_cancels_siblings (e : Executor) (cc : Bool) (N : Int)
    (body : Nat → Nat → Option Nat) (sched : List Nat)
    (l1 : List Event) (w i er : Nat) (l2 : List Event)
    (hdec : (e.ForWithContextRun cc N body sched).log = l1 ++ Event.err w i er :: l2) :
    (∀ ev ∈ l2, ev.isBody = false)
    ∧ (e.ForWithContextRun cc N body sched).errSlot = some er
    ∧ (e.ForWithContextRun cc N body sched).cancelled = true := by
  have hreach : Reach (e.ctxCfg N body) cc (e.ForWithContextRun cc N body sched) :=
    ⟨sched, rfl⟩
  have hctxinv := reach_ctxInv rfl hreach
  have hwf := reach_WF hreach
  have hnb := hctxinv.afterErr l1 w i er l2 hdec
  have hmem : Event.err w i er ∈ (e.ForWithContextRun cc N body sched).log := by
    rw [hdec]
    exact List.mem_append.mpr (Or.inr (List.mem_cons_self _ _))
  refine ⟨hnb, ?_, hctxinv.errCancel ⟨w, i, er, hmem⟩⟩
  have h2 : l2.filterMap Event.errVal = [] := by
    rw [List.filterMap_eq_nil_iff]
    intro ev hev
    exact errVal_eq_none_of_not_body (hnb ev hev)
  have h1 : l1.filterMap Event.errVal = [] := by
    rw [List.filterMap_eq_nil_iff]
    intro ev hev
    cases ev with
    | ok w' i' => rfl
    | skipCancel w' i' => rfl
    | exhaust w' => rfl
    | err w' i' e' =>
      exfalso
      obtain ⟨a, b, hab⟩ := List.append_of_mem hev
      have hdec2 : (e.ForWithContextRun cc N body sched).log =
          a ++ Event.err w' i' e' :: (b ++ Event.err w i er :: l2) := by
        rw [hdec, hab]
        simp
      have := hctxinv.afterErr a w' i' e' _ hdec2 (Event.err w i er)
        (List.mem_append.mpr (Or.inr (List.mem_cons_self _ _)))
      simp at this
  rw [hwf.errHead]
  show ((e.ForWithContextRun cc N body sched).log.filterMap Event.errVal).head? = some er
  rw [hdec, List.filterMap_append, h1,
    List.filterMap_cons_some (show Event.errVal (Event.err w i er) = some er from rfl), h2]
  rfl

/-- Witness for C3: two workers, contiguous blocks over `N = 4`; worker 1
completes index 2, then worker 0 errs on index 0 with error 7, and worker
1 is skipped at its next pre-body check. -/
theorem C3_error_cancels_siblings_witness :
    ((((NewExecutor 4).WithNumGoroutines 2).ForWithContextRun false 4
        (fun i _ => if i = 0 then some 7 else none) [1, 0, 1, 1]).log
      = [Event.ok 1 2] ++ Event.err 0 0 7 :: [Event.skipCancel 1 3]) ∧
    ((∀ ev ∈ [Event.skipCancel 1 3], ev.isBody = false)
    ∧ (((NewExecutor 4).WithNumGoroutines 2).ForWithContextRun false 4
        (fun i _ => if i = 0 then some 7 else none) [1, 0, 1, 1]).errSlot = some 7
    ∧ (((NewExecutor 4).WithNumGoroutines 2).ForWithContextRun false 4
        (fun i _ => if i = 0 then some 7 else none) [1, 0, 1, 1]).cancelled = true) :=
  ⟨by decide,
   C3_error_cancels_siblings ((NewExecutor 4).WithNumGoroutines 2) false 4
     (fun i _ => if i = 0 then some 7 else none) [1, 0, 1, 1]
     [Event.ok 1 2] 0 0 7 [Event.skipCancel 1 3] (by decide)⟩

/-- Invariant of a `ForWithContext` run whose caller context was already
cancelled on entry: the derived context stays cancelled, the body is
never invoked, and the error slot stays empty. -/
structure CancelledInv (c : MCfg) (s : MState) : Prop where
  canc : s.cancelled = true
  no_body : ∀ ev ∈ s.log, ev.isBody = false
  slot : s.errSlot = none

theorem cancelledInv_init (c : MCfg) : CancelledInv c (initState c true) :=
  ⟨rfl, by simp [initState], rfl⟩

theorem cancelledInv_step {c : MCfg} {s : MState} (v : Nat) (hctx : c.hasCtx = true)
    (hinv : CancelledInv c s) : CancelledInv c (step c s v) := by
  have hk := step_kind c s v
  generalize hstep : step c s v = t at hk ⊢
  rcases hk with hd | ⟨s', hd, hg⟩ | ⟨i, s', hd, hg, hc⟩
    | ⟨i, s', hd, hg, hc, hb⟩ | ⟨i, e, s', hd, hg, hc, hb⟩
  · exact hinv
  all_goals obtain ⟨hfd, hfe, hfc, hfl, _, _⟩ := genNext_frame hg
  · refine ⟨by rw [finishExhaust_cancelled, hfc]; exact hinv.canc, ?_,
      by rw [finishExhaust_errSlot, hfe]; exact hinv.slot⟩
    intro ev hev
    rw [finishExhaust_log, hfl] at hev
    rcases List.mem_append.mp hev with h1 | h1
    · exact hinv.no_body ev h1
    · rw [List.mem_singleton.mp h1]
      rfl
  · refine ⟨by rw [finishSkip_cancelled, hfc]; exact hinv.canc, ?_,
      by rw [finishSkip_errSlot, hfe]; exact hinv.slot⟩
    intro ev hev
    rw [finishSkip_log, hfl] at hev
    rcases List.mem_append.mp hev with h1 | h1
    · exact hinv.no_body ev h1
    · rw [List.mem_singleton.mp h1]
      rfl
  all_goals {
    exfalso
    rw [hctx, hfc, hinv.canc] at hc
    simp at hc
  }

/-- C10: a `ForWithContext` call entered with an already-cancelled
context never invokes the loop body and returns nil — not the context's
error; and in general the error returned by `ForWithContext` is either
nil or a value that some invocation of the loop body returned (the
executor never surfaces the context's own error). -/
theorem C10_never_surfaces_ctx_error (e : Executor) (N : Int)
    (body : Nat → Nat → Option Nat) (sched : List Nat) :
    ((e.ForWithContextRun true N body sched).invoked = []
      ∧ (e.ForWithContextRun true N body sched).errSlot = none)
    ∧ (∀ cc er, (e.ForWithContextRun cc N body sched).errSlot = some er →
        ∃ w i, Event.err w i er ∈ (e.ForWithContextRun cc N body sched).log
          ∧ body i w = some er) := by
  constructor
  · have hinv := reach_ind (CancelledInv (e.ctxCfg N body))
      (cancelledInv_init (e.ctxCfg N body))
      (fun _ v _ hi => cancelledInv_step v rfl hi) _ ⟨sched, rfl⟩
    refine ⟨?_, hinv.slot⟩
    rw [MState.invoked, List.filterMap_eq_nil_iff]
    intro ev hev
    have hbev := hinv.no_body ev hev
    unfold Event.isBody at hbev
    exact Option.not_isSome_iff_eq_none.mp (by simp [hbev])
  · intro cc er her
    exact errSlot_from_body ⟨sched, rfl⟩ er her

/-- Witness for C10: a pre-cancelled run does no work; a live run's
surfaced error comes from the body. -/
theorem C10_never_surfaces_ctx_error_witness :
    (((NewExecutor 1).ForWithContextRun true 3 (fun _ _ => some 4) [0, 0, 0]).invoked = []
      ∧ ((NewExecutor 1).ForWithContextRun true 3 (fun _ _ => some 4) [0, 0, 0]).errSlot
          = none)
    ∧ (∃ w i, Event.err w i 4 ∈
          ((NewExecutor 1).ForWithContextRun false 3 (fun _ _ => some 4) [0, 0, 0]).log
        ∧ (fun (_ : Nat) (_ : Nat) => some 4) i w = some 4) :=
  ⟨(C10_never_surfaces_ctx_error (NewExecutor 1) 3 (fun _ _ => some 4) [0, 0, 0]).1,
   (C10_never_surfaces_ctx_error (NewExecutor 1) 3 (fun _ _ => some 4) [0, 0, 0]).2
     false 4 (by decide)⟩


/-! ## No cross-worker cancellation in `For` -/

/-- Invariant: once worker `w` has logged an error it is finished, and
nothing after its error event in the log belongs to `w` — the worker
neither fetches another index nor invokes the body again. -/
structure StopInv (c : MCfg) (s : MState) (w : Nat) : Prop where
  errDone : ∀ i e0, Event.err w i e0 ∈ s.log → s.done w = true
  errStop : ∀ l1 i e0 l2, s.log = l1 ++ Event.err w i e0 :: l2 →
    ∀ ev ∈ l2, ev.worker ≠ w

theorem stopInv_init (c : MCfg) (cc : Bool) (w : Nat) : StopInv c (initState c cc) w := by
  constructor
  · intro i e0 hmem
    exact absurd hmem (by simp [initState])
  · intro l1 i e0 l2 hdec
    exact absurd hdec (by simp [initState])

/-- If worker `w` has already logged an error, a worker that is still
live is a different worker. -/
theorem stopInv_v_ne {c : MCfg} {s : MState} {w v i0 e0 : Nat} (hinv : StopInv c s w)
    (hd : s.done v = false) (hmem : Event.err w i0 e0 ∈ s.log) : v ≠ w := by
  intro hvw
  rw [hvw] at hd
  exact absurd (hinv.errDone i0 e0 hmem) (by rw [hd]; simp)

theorem done_update_true {d : Nat → Bool} {v w : Nat} (h : w = v ∨ d w = true) :
    Function.update d v true w = true := by
  rcases h with h | h
  · rw [h, Function.update_same]
  · by_cases hwv : w = v
    · rw [hwv, Function.update_same]
    · rw [Function.update_noteq hwv]
      exact h

theorem stopInv_step {c : MCfg} {s : MState} {w : Nat} (v : Nat)
    (hinv : StopInv c s w) : StopInv c (step c s v) w := by
  have hk := step_kind c s v
  generalize hstep : step c s v = t at hk ⊢
  rcases hk with hd | ⟨s', hd, hg⟩ | ⟨i, s', hd, hg, hc⟩
    | ⟨i, s', hd, hg, hc, hb⟩ | ⟨i, e, s', hd, hg, hc, hb⟩
  · exact hinv
  all_goals obtain ⟨hfd, hfe, hfc, hfl, _, _⟩ := genNext_frame hg
  · -- exhaust event
    constructor
    · intro i0 e0 hmem
      rw [finishExhaust_log, hfl] at hmem
      rw [finishExhaust_done, hfd]
      rcases List.mem_append.mp hmem with h1 | h1
      · exact done_update_true (Or.inr (hinv.errDone i0 e0 h1))
      · exact absurd (List.mem_singleton.mp h1) (by simp)
    · intro l1 i0 e0 l2 hdec
      rw [finishExhaust_log, hfl] at hdec
      rcases append_singleton_decomp hdec with ⟨l2', hl, hl2⟩ | ⟨_, hxy, _⟩
      · intro ev' hev'
        rw [hl2] at hev'
        rcases List.mem_append.mp hev' with h1 | h1
        · exact hinv.errStop l1 i0 e0 l2' hl ev' h1
        · rw [List.mem_singleton.mp h1]
          simp only [Event.worker_exhaust]
          exact stopInv_v_ne hinv hd
            (show Event.err w i0 e0 ∈ s.log by
              rw [hl]
              exact List.mem_append.mpr (Or.inr (List.mem_cons_self _ _)))
      · exact absurd hxy (by simp)
  · -- skip event
    constructor
    · intro i0 e0 hmem
      rw [finishSkip_log, hfl] at hmem
      rw [finishSkip_done, hfd]
      rcases List.mem_append.mp hmem with h1 | h1
      · exact done_update_true (Or.inr (hinv.errDone i0 e0 h1))
      · exact absurd (List.mem_singleton.mp h1) (by simp)
    · intro l1 i0 e0 l2 hdec
      rw [finishSkip_log, hfl] at hdec
      rcases append_singleton_decomp hdec with ⟨l2', hl, hl2⟩ | ⟨_, hxy, _⟩
      · intro ev' hev'
        rw [hl2] at hev'
        rcases List.mem_append.mp hev' with h1 | h1
        · exact hinv.errStop l1 i0 e0 l2' hl ev' h1
        · rw [List.mem_singleton.mp h1]
          simp only [Event.worker_skipCancel]
          exact stopInv_v_ne hinv hd
            (show Event.err w i0 e0 ∈ s.log by
              rw [hl]
              exact List.mem_append.mpr (Or.inr (List.mem_cons_self _ _)))
      · exact absurd hxy (by simp)
  · -- ok event
    constructor
    · intro i0 e0 hmem
      rw [logOk_log, hfl] at hmem
      rw [logOk_done, hfd]
      rcases List.mem_append.mp hmem with h1 | h1
      · exact hinv.errDone i0 e0 h1
      · exact absurd (List.mem_singleton.mp h1) (by simp)
    · intro l1 i0 e0 l2 hdec
      rw [logOk_log, hfl] at hdec
      rcases append_singleton_decomp hdec with ⟨l2', hl, hl2⟩ | ⟨_, hxy, _⟩
      · intro ev' hev'
        rw [hl2] at hev'
        rcases List.mem_append.mp hev' with h1 | h1
        · exact hinv.errStop l1 i0 e0 l2' hl ev' h1
        · rw [List.mem_singleton.mp h1]
          simp only [Event.worker_ok]
          exact stopInv_v_ne hinv hd
            (show Event.err w i0 e0 ∈ s.log by
              rw [hl]
              exact List.mem_append.mpr (Or.inr (List.mem_cons_self _ _)))
      · exact absurd hxy (by simp)
  · -- err event
    constructor
    · intro i0 e0 hmem
      rw [finishErr_log, hfl] at hmem
      rw [finishErr_done, hfd]
      rcases List.mem_append.mp hmem with h1 | h1
      · exact done_update_true (Or.inr (hinv.errDone i0 e0 h1))
      · have heq := List.mem_singleton.mp h1
        injection heq with hw1 _ _
        exact done_update_true (Or.inl hw1)
    · intro l1 i0 e0 l2 hdec
      rw [finishErr_log, hfl] at hdec
      rcases append_singleton_decomp hdec with ⟨l2', hl, hl2⟩ | ⟨_, _, hl2⟩
      · intro ev' hev'
        rw [hl2] at hev'
        rcases List.mem_append.mp hev' with h1 | h1
        · exact hinv.errStop l1 i0 e0 l2' hl ev' h1
        · rw [List.mem_singleton.mp h1]
          simp only [Event.worker_err]
          exact stopInv_v_ne hinv hd
            (show Event.err w i0 e0 ∈ s.log by
              rw [hl]
              exact List.mem_append.mpr (Or.inr (List.mem_cons_self _ _)))
      · intro ev' hev'
        rw [hl2] at hev'
        exact absurd hev' (List.not_mem_nil ev')

/-- C4: under the contiguous strategy in `Executor.For` (no context), if
the loop body errs, the worker `w0` that observed the error neither
invokes the body nor fetches an index ever again (no event of `w0`
follows its error event), while every other worker — whose body
invocations all succeed — still runs the body for every index of its
assigned block: an error in one worker never prevents a sibling's
indices from being processed. -/
theorem C4_no_cross_worker_cancellation (e : Executor) (N : Int)
    (body : Nat → Nat → Option Nat) (sched : List Nat) (w0 : Nat)
    (hstrat : e.effectiveStrategy = .contiguousBlocks)
    (hother : ∀ w i, w ≠ w0 → body i w = none)
    (hdone : allDone e.numGoroutines (e.ForRun N body sched)) :
    (∀ l1 i e0 l2, (e.ForRun N body sched).log = l1 ++ Event.err w0 i e0 :: l2 →
        ∀ ev ∈ l2, ev.worker ≠ w0)
    ∧ (∀ w, w < e.numGoroutines → w ≠ w0 →
        (e.ForRun N body sched).invokedBy w = blockList e.numGoroutines w N.toNat) := by
  have hreach : Reach (e.forCfg N body) false (e.ForRun N body sched) := ⟨sched, rfl⟩
  constructor
  · have hinv := reach_ind (fun s0 => StopInv (e.forCfg N body) s0 w0)
      (stopInv_init _ false w0) (fun _ v _ hi => stopInv_step v hi) _ hreach
    exact hinv.errStop
  · intro w hw hne
    exact contig_done_block hstrat rfl (fun i => hother w i hne) hw hreach (hdone w hw)

/-- Witness for C4: two workers over `N = 4`; worker 0 errs on its first
index 0 while worker 1 runs its whole block `{2, 3}`. -/
theorem C4_no_cross_worker_cancellation_witness :
    (((NewExecutor 4).WithNumGoroutines 2).effectiveStrategy = .contiguousBlocks ∧
      allDone ((NewExecutor 4).WithNumGoroutines 2).numGoroutines
        (((NewExecutor 4).WithNumGoroutines 2).ForRun 4
          (fun _ w => if w = 0 then some 7 else none) [0, 1, 1, 1, 0])) ∧
    ((∀ ev ∈ [Event.ok 1 2, Event.ok 1 3, Event.exhaust 1], ev.worker ≠ 0)
     ∧ (((NewExecutor 4).WithNumGoroutines 2).ForRun 4
          (fun _ w => if w = 0 then some 7 else none) [0, 1, 1, 1, 0]).invokedBy 1
        = blockList ((NewExecutor 4).WithNumGoroutines 2).numGoroutines 1 (4 : Int).toNat) :=
  ⟨⟨rfl, by decide⟩,
   ⟨(C4_no_cross_worker_cancellation ((NewExecutor 4).WithNumGoroutines 2) 4
       (fun _ w => if w = 0 then some 7 else none) [0, 1, 1, 1, 0] 0 rfl
       (fun w i hw => by simp [hw]) (by decide)).1
      [] 0 7 [Event.ok 1 2, Event.ok 1 3, Event.exhaust 1] (by decide),
    (C4_no_cross_worker_cancellation ((NewExecutor 4).WithNumGoroutines 2) 4
       (fun _ w => if w = 0 then some 7 else none) [0, 1, 1, 1, 0] 0 rfl
       (fun w i hw => by simp [hw]) (by decide)).2 1 (by decide) (by decide)⟩⟩

/-! ## The serial executor -/

theorem serialGo_all_ok (body : Nat → Nat → Option Nat) :
    ∀ k i, (∀ j, j < k → body (i + j) 0 = none) →
      serialGo body i k = ((List.range' i k).map (fun j => (j, 0)), none) := by
  intro k
  induction k with
  | zero => intro i _; rfl
  | succ k ih =>
    intro i h
    have h0 : body i 0 = none := by
      have := h 0 (Nat.succ_pos k)
      simpa using this
    show serialGo body i (k + 1) = _
    unfold serialGo
    rw [h0]
    have hrec := ih (i + 1) (fun j hj => by
      rw [show i + 1 + j = i + (j + 1) by omega]
      exact h (j + 1) (by omega))
    rw [hrec, List.range'_succ]
    rfl

theorem serialGo_first_err (body : Nat → Nat → Option Nat) :
    ∀ k i d ev, d < k → body (i + d) 0 = some ev →
      (∀ j, j < d → body (i + j) 0 = none) →
      serialGo body i k = ((List.range' i (d + 1)).map (fun j => (j, 0)), some ev) := by
  intro k
  induction k with
  | zero => intro i d ev hd _ _; exact absurd hd (Nat.not_lt_zero d)
  | succ k ih =>
    intro i d ev hd hbd hprev
    cases d with
    | zero =>
      have h0 : body i 0 = some ev := by simpa using hbd
      show serialGo body i (k + 1) = _
      unfold serialGo
      rw [h0]
      rfl
    | succ d =>
      have h0 : body i 0 = none := by
        have := hprev 0 (Nat.succ_pos d)
        simpa using this
      show serialGo body i (k + 1) = _
      unfold serialGo
      rw [h0]
      have hrec := ih (i + 1) d ev (by omega)
        (by rw [show i + 1 + d = i + (d + 1) by omega]; exact hbd)
        (fun j hj => by
          rw [show i + 1 + j = i + (j + 1) by omega]
          exact hprev (j + 1) (by omega))
      rw [hrec, List.range'_succ]
      rfl

/-- C5: `SerialExecutor().For(N, body)` invokes the body on indices
`0, 1, …, N-1` in ascending order, always passing goroutine id `0`; if
no invocation errs it returns nil, and if some invocation errs it stops
immediately — the body runs exactly for indices `0` through the first
failing index `k`, and the call returns that error. -/
theorem C5_serial_executor (N : Int) (body : Nat → Nat → Option Nat) :
    ((∀ i, i < N.toNat → body i 0 = none) →
      SerialExecutorFor N body = ((List.range N.toNat).map (fun i => (i, 0)), none))
    ∧ (∀ k ev, k < N.toNat → body k 0 = some ev → (∀ i, i < k → body i 0 = none) →
      SerialExecutorFor N body = ((List.range (k + 1)).map (fun i => (i, 0)), some ev)) := by
  constructor
  · intro h
    show serialGo body 0 N.toNat = _
    rw [serialGo_all_ok body N.toNat 0 (fun j hj => by simpa using h j hj),
      List.range_eq_range']
  · intro k ev hk hbk hprev
    show serialGo body 0 N.toNat = _
    rw [serialGo_first_err body N.toNat 0 k ev hk (by simpa using hbk)
      (fun j hj => by simpa using hprev j hj), List.range_eq_range']

/-- Witness for C5: an error-free run over `N = 2` and a run over `N = 3`
erring first at index 1. -/
theorem C5_serial_executor_witness :
    SerialExecutorFor 2 (fun _ _ => none) =
      ((List.range (2 : Int).toNat).map (fun i => (i, 0)), none)
    ∧ (1 < (3 : Int).toNat ∧ (fun i (_ : Nat) => if i = 1 then some 5 else none) 1 0 = some 5)
    ∧ SerialExecutorFor 3 (fun i _ => if i = 1 then some 5 else none) =
      ((List.range 2).map (fun i => (i, 0)), some 5) :=
  ⟨(C5_serial_executor 2 (fun _ _ => none)).1 (fun _ _ => rfl),
   ⟨by decide, by decide⟩,
   (C5_serial_executor 3 (fun i _ => if i = 1 then some 5 else none)).2 1 5
     (by decide) (by decide) (fun i hi => by
       have h0 : i = 0 := by omega
       rw [h0]
       rfl)⟩

/-! ## Serial/parallel equivalence for a pure body -/

/-- Writing `result[i] = f(i)` for each invoked index `i`, in invocation
order. -/
def applyWrites (f : Nat → Nat) (idxs : List Nat) (a : List Nat) : List Nat :=
  idxs.foldl (fun acc i => acc.set i (f i)) a

/-- Since the written value is determined by the index, the final array
depends only on the multiset of invoked indices. -/
theorem applyWrites_perm (f : Nat → Nat) {l1 l2 : List Nat} (h : l1.Perm l2) :
    ∀ a, applyWrites f l1 a = applyWrites f l2 a := by
  induction h with
  | nil => intro a; rfl
  | cons x h ih =>
    intro a
    unfold applyWrites
    simp only [List.foldl_cons]
    exact ih _
  | swap x y l =>
    intro a
    unfold applyWrites
    simp only [List.foldl_cons]
    by_cases hxy : x = y
    · rw [hxy]
    · congr 1
      exact List.set_comm _ _ a (fun hh => hxy hh.symm)
  | trans h1 h2 ih1 ih2 =>
    intro a
    exact (ih1 a).trans (ih2 a)

/-- C6: for every `N` and pure, error-free body semantics
`result[i] = f(i)`, a completed `Executor.For` run under any strategy and
`SerialExecutor().For` produce identical result array contents, for every
initial array. -/
theorem C6_serial_parallel_equivalence (e : Executor) (N : Int) (f : Nat → Nat)
    (sched : List Nat) (a : List Nat)
    (hN : 0 ≤ N) (hwc : 1 ≤ e.numGoroutines)
    (hdone : allDone e.numGoroutines (e.ForRun N (fun _ _ => none) sched)) :
    applyWrites f (e.ForRun N (fun _ _ => none) sched).invoked a =
      applyWrites f ((SerialExecutorFor N (fun _ _ => none)).1.map Prod.fst) a := by
  have hcov : (↑(e.ForRun N (fun _ _ => none) sched).invoked : Multiset Nat) =
      ↑(List.range N.toNat) :=
    run_coverage rfl hwc (fun _ _ => rfl) ⟨sched, rfl⟩ hdone
  have hperm : ((e.ForRun N (fun _ _ => none) sched).invoked).Perm (List.range N.toNat) :=
    Multiset.coe_eq_coe.mp hcov
  have hser : SerialExecutorFor N (fun _ _ => none) =
      ((List.range N.toNat).map (fun i => (i, 0)), none) := by
    show serialGo (fun _ _ => none) 0 N.toNat = _
    rw [serialGo_all_ok (fun _ _ => none) N.toNat 0 (fun _ _ => rfl), List.range_eq_range']
  rw [hser]
  have hmap : ((List.range N.toNat).map (fun i => (i, (0 : Nat)))).map Prod.fst =
      List.range N.toNat := by
    have hcomp : (Prod.fst ∘ fun i : Nat => (i, (0 : Nat))) = id := rfl
    rw [List.map_map, hcomp, List.map_id]
  rw [hmap]
  exact applyWrites_perm f hperm a

/-- Witness for C6: two workers, default contiguous strategy, `N = 3`,
`f = (· + 10)`, initial array `[0, 0, 0]`. -/
theorem C6_serial_parallel_equivalence_witness :
    ((0 : Int) ≤ 3 ∧ 1 ≤ ((NewExecutor 4).WithNumGoroutines 2).numGoroutines ∧
      allDone ((NewExecutor 4).WithNumGoroutines 2).numGoroutines
        (((NewExecutor 4).WithNumGoroutines 2).ForRun 3 (fun _ _ => none) [1, 0, 0, 1, 0])) ∧
    applyWrites (· + 10)
        (((NewExecutor 4).WithNumGoroutines 2).ForRun 3 (fun _ _ => none)
          [1, 0, 0, 1, 0]).invoked [0, 0, 0] =
      applyWrites (· + 10) ((SerialExecutorFor 3 (fun _ _ => none)).1.map Prod.fst)
        [0, 0, 0] :=
  ⟨⟨by decide, by decide, by decide⟩,
   C6_serial_parallel_equivalence ((NewExecutor 4).WithNumGoroutines 2) 3 (· + 10)
     [1, 0, 0, 1, 0] [0, 0, 0] (by decide) (by decide) (by decide)⟩

end Parallel
